import Mathlib

/-!
# SplitSmart: a verified shallow embedding

This file embeds the core of `src/splitsmart.py` (share calculation,
debt ledger, netting collapse) in Lean 4 and proves the specified
properties about it.

Modelling decisions:

* Monetary values are exact rationals (`ℚ`).  Python's `round(x, 2)` is
  modelled by `round2`, exact rounding to a multiple of `1/100` using
  Mathlib's `round` (nearest integer, half rounds up).  On any value that
  is not an exact half-cent tie this agrees with Python's rounding of the
  corresponding float; monetary data is 2-decimal so ties do not arise in
  the ledger computations.
* Python `dict`s are modelled as association lists that preserve
  insertion order, exactly as CPython 3.7+ dicts do: updating an existing
  key keeps its position, inserting a new key appends it at the end.
* `list.sort(key=...)` is modelled by a stable ascending insertion sort.
* Exceptions are modelled with `Except String` / state-passing pairs: a
  method that mutates `self` and may raise is a function returning the
  state as it stands when the exception escapes.
-/

set_option linter.unusedSectionVars false

namespace SplitSmart

/-- The epsilon threshold `0.009` used by the debt manager. -/
def eps : ℚ := 9 / 1000

/-- Round a rational to the nearest integer (computationally, by integer
division; `rnd_eq_round` shows this is Mathlib's `round`). -/
def rnd (q : ℚ) : ℤ := (2 * q.num + q.den) / (2 * (q.den : ℤ))

/-- `rnd` is rounding to the nearest integer. -/
theorem rnd_eq_round (q : ℚ) : rnd q = round q := by
  have hden : ((q.den : ℚ)) ≠ 0 := by
    exact_mod_cast q.den_nz
  have hnum : (q.num : ℚ) = q * q.den := (div_eq_iff hden).mp (Rat.num_div_den q)
  have hq : ((2 * q.num + q.den : ℤ) : ℚ) / ((2 * q.den : ℕ) : ℚ) = q + 1/2 := by
    push_cast
    rw [div_eq_iff (by positivity : (2 * (q.den : ℚ)) ≠ 0), hnum]
    ring
  have h := Rat.floor_intCast_div_natCast (2 * q.num + q.den) (2 * q.den)
  rw [hq] at h
  rw [round_eq, h, rnd]
  norm_cast

/-- `round(x, 2)`: exact rounding to a multiple of 1/100. -/
def round2 (q : ℚ) : ℚ := (rnd (100 * q) : ℤ) / 100

/-- `round(x, 6)`: exact rounding to a multiple of 1/10^6 (used for the
percentage-total check). -/
def round6 (q : ℚ) : ℚ := (rnd (1000000 * q) : ℤ) / 1000000

theorem round2_eq (q : ℚ) : round2 q = (round (100 * q) : ℤ) / 100 := by
  rw [round2, rnd_eq_round]

/-- A rational is a whole number of cents (a 2-decimal monetary value). -/
def IsCent (q : ℚ) : Prop := ∃ n : ℤ, q = (n : ℚ) / 100

theorem isCent_round2 (q : ℚ) : IsCent (round2 q) := ⟨rnd (100 * q), rfl⟩

theorem isCent_zero : IsCent 0 := ⟨0, by norm_num⟩

theorem IsCent.add {a b : ℚ} (ha : IsCent a) (hb : IsCent b) : IsCent (a + b) := by
  obtain ⟨m, rfl⟩ := ha; obtain ⟨n, rfl⟩ := hb
  exact ⟨m + n, by push_cast; ring⟩

theorem IsCent.neg {a : ℚ} (ha : IsCent a) : IsCent (-a) := by
  obtain ⟨m, rfl⟩ := ha
  exact ⟨-m, by push_cast; ring⟩

theorem IsCent.sub {a b : ℚ} (ha : IsCent a) (hb : IsCent b) : IsCent (a - b) := by
  rw [sub_eq_add_neg]; exact ha.add hb.neg

theorem IsCent.min {a b : ℚ} (ha : IsCent a) (hb : IsCent b) : IsCent (min a b) := by
  rcases le_total a b with h | h
  · rwa [min_eq_left h]
  · rwa [min_eq_right h]

theorem round2_of_isCent {q : ℚ} (h : IsCent q) : round2 q = q := by
  obtain ⟨n, rfl⟩ := h
  have h100 : (100 : ℚ) * ((n : ℚ) / 100) = (n : ℚ) := by ring
  rw [round2_eq, h100, round_intCast]

theorem round2_round2 (q : ℚ) : round2 (round2 q) = round2 q :=
  round2_of_isCent (isCent_round2 q)

theorem round2_zero : round2 0 = 0 := round2_of_isCent isCent_zero

/-- Rounding commutes with shifting by a whole number of cents. -/
theorem round2_add_isCent {c : ℚ} (hc : IsCent c) (q : ℚ) :
    round2 (c + q) = c + round2 q := by
  obtain ⟨n, rfl⟩ := hc
  have h1 : (100 : ℚ) * ((n : ℚ) / 100 + q) = 100 * q + (n : ℚ) := by ring
  rw [round2_eq, h1, round_add_int, round2_eq]
  push_cast
  ring

theorem round2_sub_isCent {c : ℚ} (hc : IsCent c) (q : ℚ) :
    round2 (q - c) = round2 q - c := by
  have h := round2_add_isCent hc.neg q
  rw [show -c + q = q - c by ring] at h
  rw [h]; ring

theorem round2_mono : Monotone round2 := by
  intro a b hab
  have h : round (100 * a) ≤ round (100 * b) := by
    rw [round_eq, round_eq]
    exact Int.floor_mono (by linarith)
  rw [round2_eq, round2_eq]
  exact div_le_div_of_nonneg_right (by exact_mod_cast h) (by norm_num)

/-- The rounding error of `round2` lies in `[-1/200, 1/200)`. -/
theorem round2_err (q : ℚ) : -(1/200) ≤ q - round2 q ∧ q - round2 q < 1/200 := by
  have h := round_eq (100 * q)
  have hfl := Int.floor_le (100 * q + 1 / 2)
  have hfl2 := Int.lt_floor_add_one (100 * q + 1 / 2)
  constructor
  · rw [round2_eq, h]
    have : (⌊100 * q + 1 / 2⌋ : ℚ) ≤ 100 * q + 1 / 2 := hfl
    nlinarith
  · rw [round2_eq, h]
    have : (100 * q + 1 / 2 : ℚ) < ⌊100 * q + 1 / 2⌋ + 1 := hfl2
    nlinarith

/-- Rounding a quantity that is already within half a cent of zero gives zero. -/
theorem round2_small {q : ℚ} (h1 : -(1/200) ≤ q) (h2 : q < 1/200) : round2 q = 0 := by
  have h := round_eq (100 * q)
  have h0 : ⌊(100 * q + 1 / 2 : ℚ)⌋ = 0 := by
    apply Int.floor_eq_zero_iff.mpr
    constructor
    · show (0 : ℚ) ≤ 100 * q + 1 / 2
      linarith
    · show (100 * q + 1 / 2 : ℚ) < 1
      linarith
  rw [round2_eq, h, h0]
  norm_num

/-- After paying `round2 (min da ca)`, at least one of the two remainders is
below the epsilon threshold, for all rational inputs (this is why the
two-pointer netting loop always advances). -/
theorem greedy_advances (da ca : ℚ) :
    round2 (da - round2 (min da ca)) ≤ eps ∨ round2 (ca - round2 (min da ca)) ≤ eps := by
  rcases le_total da ca with h | h
  · left
    rw [min_eq_left h]
    have he := round2_err da
    have : round2 (da - round2 da) = 0 := round2_small (by linarith [he.1]) (by linarith [he.2])
    rw [this]; norm_num [eps]
  · right
    rw [min_eq_right h]
    have he := round2_err ca
    have : round2 (ca - round2 ca) = 0 := round2_small (by linarith [he.1]) (by linarith [he.2])
    rw [this]; norm_num [eps]

/-- A cent value at most `eps` is at most zero. -/
theorem IsCent.nonpos_of_le_eps {q : ℚ} (hc : IsCent q) (h : q ≤ eps) : q ≤ 0 := by
  obtain ⟨n, rfl⟩ := hc
  have hn : (n : ℚ) ≤ 9 / 10 := by rw [eps] at h; linarith
  have h1 : (n : ℚ) < 1 := lt_of_le_of_lt hn (by norm_num)
  have h2 : n < 1 := by exact_mod_cast h1
  have h3 : (n : ℚ) ≤ 0 := by exact_mod_cast (by omega : n ≤ 0)
  linarith

/-- A cent value above `eps` is at least one cent. -/
theorem IsCent.one_cent_of_gt_eps {q : ℚ} (hc : IsCent q) (h : eps < q) : 1/100 ≤ q := by
  obtain ⟨n, rfl⟩ := hc
  have hn : (9 : ℚ) / 10 < (n : ℚ) := by rw [eps] at h; linarith
  have h1 : (0 : ℤ) < n := by exact_mod_cast (lt_of_le_of_lt (by norm_num) hn : (0 : ℚ) < n)
  have h2 : (1 : ℤ) ≤ n := h1
  have : (1 : ℚ) ≤ (n : ℚ) := by exact_mod_cast h2
  linarith

/-! ## Python dicts as insertion-ordered association lists -/

section Dict

variable {K V : Type} [DecidableEq K]

/-- `d.get(k)` / `k in d`. -/
def dget : List (K × V) → K → Option V
  | [], _ => none
  | kv :: rest, k => if kv.1 = k then some kv.2 else dget rest k

/-- `d.get(k, v0)`. -/
def dgetD (m : List (K × V)) (k : K) (v0 : V) : V := (dget m k).getD v0

/-- `d[k] = v`: update in place if the key exists, else append. -/
def dinsert : List (K × V) → K → V → List (K × V)
  | [], k, v => [(k, v)]
  | kv :: rest, k, v => if kv.1 = k then (k, v) :: rest else kv :: dinsert rest k v

/-- `d.pop(k, None)`: drop the key's entry if present. -/
def derase : List (K × V) → K → List (K × V)
  | [], _ => []
  | kv :: rest, k => if kv.1 = k then rest else kv :: derase rest k

/-- The keys of a dict, in insertion order. -/
def dkeys (m : List (K × V)) : List K := m.map Prod.fst

theorem dkeys_nil : dkeys ([] : List (K × V)) = [] := rfl

theorem dkeys_cons (kv : K × V) (m : List (K × V)) : dkeys (kv :: m) = kv.1 :: dkeys m := rfl

theorem dget_eq_none {m : List (K × V)} {k : K} (h : k ∉ dkeys m) : dget m k = none := by
  induction m with
  | nil => rfl
  | cons kv rest ih =>
    obtain ⟨k1, v1⟩ := kv
    rw [dkeys_cons, List.mem_cons] at h
    push_neg at h
    rw [dget, if_neg (fun he => h.1 he.symm)]
    exact ih h.2

theorem dget_mem_keys {m : List (K × V)} {k : K} {v : V} (h : dget m k = some v) :
    k ∈ dkeys m := by
  induction m with
  | nil => simp [dget] at h
  | cons kv rest ih =>
    simp only [dget] at h
    by_cases he : kv.1 = k
    · simp [dkeys, he]
    · simp only [if_neg he] at h
      simp [dkeys, ih h, dkeys] at *
      right
      exact ih h

theorem dinsert_eq_append {m : List (K × V)} {k : K} (h : k ∉ dkeys m) (v : V) :
    dinsert m k v = m ++ [(k, v)] := by
  induction m with
  | nil => rfl
  | cons kv rest ih =>
    simp only [dkeys, List.map_cons, List.mem_cons] at h
    push_neg at h
    rw [dinsert, if_neg (fun he => h.1 he.symm), ih (by simpa [dkeys] using h.2)]
    rfl

theorem dkeys_dinsert_of_mem {m : List (K × V)} {k : K} (h : k ∈ dkeys m) (v : V) :
    dkeys (dinsert m k v) = dkeys m := by
  induction m with
  | nil => simp [dkeys] at h
  | cons kv rest ih =>
    obtain ⟨k1, v1⟩ := kv
    rw [dkeys_cons, List.mem_cons] at h
    by_cases he : k1 = k
    · rw [dinsert, if_pos he, dkeys_cons, dkeys_cons, he]
    · rcases h with h | h
      · exact absurd h.symm he
      · rw [dinsert, if_neg he, dkeys_cons, dkeys_cons, ih h]

theorem dkeys_dinsert_of_not_mem {m : List (K × V)} {k : K} (h : k ∉ dkeys m) (v : V) :
    dkeys (dinsert m k v) = dkeys m ++ [k] := by
  rw [dinsert_eq_append h, dkeys, List.map_append]
  rfl

theorem mem_dkeys_dinsert (m : List (K × V)) (k : K) (v : V) {u : K}
    (h : u ∈ dkeys (dinsert m k v)) : u ∈ dkeys m ∨ u = k := by
  by_cases hk : k ∈ dkeys m
  · rw [dkeys_dinsert_of_mem hk] at h; exact Or.inl h
  · rw [dkeys_dinsert_of_not_mem hk] at h
    simp only [List.mem_append, List.mem_singleton] at h
    exact h

theorem dkeys_nodup_dinsert {m : List (K × V)} (h : (dkeys m).Nodup) (k : K) (v : V) :
    (dkeys (dinsert m k v)).Nodup := by
  by_cases hk : k ∈ dkeys m
  · rwa [dkeys_dinsert_of_mem hk]
  · rw [dkeys_dinsert_of_not_mem hk]
    exact List.Nodup.append h (List.nodup_singleton k)
      (by simpa [List.disjoint_singleton] using hk)

theorem dget_dinsert_self (m : List (K × V)) (k : K) (v : V) :
    dget (dinsert m k v) k = some v := by
  induction m with
  | nil => simp [dinsert, dget]
  | cons kv rest ih =>
    by_cases he : kv.1 = k
    · simp [dinsert, if_pos he, dget]
    · simp [dinsert, if_neg he, dget, if_neg he, ih]

theorem dget_dinsert_ne (m : List (K × V)) {k u : K} (h : u ≠ k) (v : V) :
    dget (dinsert m k v) u = dget m u := by
  induction m with
  | nil =>
    show dget [(k, v)] u = none
    rw [dget, if_neg (fun he : k = u => h he.symm), dget]
  | cons kv rest ih =>
    obtain ⟨k1, v1⟩ := kv
    by_cases he : k1 = k
    · rw [dinsert, if_pos he, dget, if_neg (fun hh : k = u => h hh.symm), dget,
        if_neg (fun hh : k1 = u => h (he ▸ hh).symm)]
    · rw [dinsert, if_neg he, dget, dget]
      by_cases hu : k1 = u
      · rw [if_pos hu, if_pos hu]
      · rw [if_neg hu, if_neg hu, ih]

theorem mem_dinsert {m : List (K × V)} {k : K} {v : V} {kv : K × V}
    (h : kv ∈ dinsert m k v) : kv ∈ m ∨ kv = (k, v) := by
  induction m with
  | nil => simp [dinsert] at h; simp [h]
  | cons kv0 rest ih =>
    by_cases he : kv0.1 = k
    · simp only [dinsert, if_pos he, List.mem_cons] at h
      rcases h with h | h
      · exact Or.inr h
      · exact Or.inl (List.mem_cons_of_mem _ h)
    · simp only [dinsert, if_neg he, List.mem_cons] at h
      rcases h with h | h
      · exact Or.inl (by simp [h])
      · rcases ih h with h | h
        · exact Or.inl (List.mem_cons_of_mem _ h)
        · exact Or.inr h

theorem derase_dinsert (m : List (K × V)) (k : K) (v : V) :
    derase (dinsert m k v) k = derase m k := by
  induction m with
  | nil => simp [dinsert, derase]
  | cons kv rest ih =>
    by_cases he : kv.1 = k
    · simp [dinsert, if_pos he, derase, he]
    · simp [dinsert, if_neg he, derase, he, ih]

theorem dinsert_length_le (m : List (K × V)) (k : K) (v : V) :
    (dinsert m k v).length ≤ m.length + 1 := by
  induction m with
  | nil => simp [dinsert]
  | cons kv rest ih =>
    by_cases he : kv.1 = k
    · simp [dinsert, if_pos he]
    · simp only [dinsert, if_neg he, List.length_cons]
      omega

end Dict

/-- Sum of the values of an association list. -/
def sumValues {K : Type} (m : List (K × ℚ)) : ℚ := (m.map Prod.snd).sum

theorem sumValues_nil {K : Type} : sumValues ([] : List (K × ℚ)) = 0 := rfl

theorem sumValues_cons {K : Type} (kv : K × ℚ) (m : List (K × ℚ)) :
    sumValues (kv :: m) = kv.2 + sumValues m := by
  simp [sumValues]

theorem sumValues_append {K : Type} (m1 m2 : List (K × ℚ)) :
    sumValues (m1 ++ m2) = sumValues m1 + sumValues m2 := by
  simp [sumValues]

/-- Updating a key present in the dict changes the sum by the difference
between the new and the old value. -/
theorem sumValues_dinsert {K : Type} [DecidableEq K] {m : List (K × ℚ)} {k : K} {w : ℚ}
    (h : dget m k = some w) (v : ℚ) :
    sumValues (dinsert m k v) = sumValues m - w + v := by
  induction m with
  | nil => simp [dget] at h
  | cons kv rest ih =>
    simp only [dget] at h
    by_cases he : kv.1 = k
    · simp only [if_pos he] at h
      injection h with h
      simp [dinsert, if_pos he, sumValues_cons, h]
      ring
    · simp only [if_neg he] at h
      simp only [dinsert, if_neg he, sumValues_cons, ih h]
      ring

/-! ## Domain model (`User`, `Expense`, split strategies) -/

/-- `User`: frozen dataclass, equality on all fields. -/
structure User where
  name : String
  email : String
deriving DecidableEq

/-- The `details` dict of an expense: at most one of the three parameter
maps is relevant, each an insertion-ordered mapping from email. -/
structure Details where
  amounts : Option (List (String × ℚ)) := none
  percents : Option (List (String × ℚ)) := none
  shares : Option (List (String × ℤ)) := none
deriving DecidableEq

/-- Symmetric set equality of key sets (`set(a) == set(b)`). -/
def sameKeySet (a b : List String) : Prop := (∀ x ∈ a, x ∈ b) ∧ (∀ x ∈ b, x ∈ a)

instance (a b : List String) : Decidable (sameKeySet a b) := by
  unfold sameKeySet; infer_instance

/-- `{u.email: u for u in participants}`. -/
def emailToUser (participants : List User) : List (String × User) :=
  participants.foldl (fun m u => dinsert m u.email u) []

/-- `EqualSplit.calculate_shares`. -/
def equalSplitShares (amount : ℚ) (participants : List User) :
    Except String (List (User × ℚ)) :=
  match participants with
  | [] => .error "No participants to split among."
  | p0 :: _ =>
    let n : ℚ := participants.length
    let base := round2 (amount / n)
    let shares := participants.foldl (fun m p => dinsert m p base) []
    let distributed := round2 (sumValues shares)
    let remainder := round2 (amount - distributed)
    if remainder ≠ 0 then
      .ok (dinsert shares p0 (round2 (dgetD shares p0 0 + remainder)))
    else
      .ok shares

/-- `UnequalSplit.calculate_shares`. -/
def unequalSplitShares (amount : ℚ) (participants : List User)
    (details : Option Details) : Except String (List (User × ℚ)) :=
  match details.bind Details.amounts with
  | none => .error "UnequalSplit requires details['amounts']."
  | some amounts =>
    let e2u := emailToUser participants
    if ¬ sameKeySet (dkeys amounts) (dkeys e2u) then
      .error "Amounts keys must match participants emails."
    else
      let total := round2 (sumValues amounts)
      if round2 amount ≠ total then
        .error "Amounts must sum to total."
      else
        .ok (amounts.foldl (fun m ev =>
          match dget e2u ev.1 with
          | some u => dinsert m u (round2 ev.2)
          | none => m) [])

/-- `PercentSplit.calculate_shares`. -/
def percentSplitShares (amount : ℚ) (participants : List User)
    (details : Option Details) : Except String (List (User × ℚ)) :=
  match details.bind Details.percents with
  | none => .error "PercentSplit requires details['percents']."
  | some percents =>
    let e2u := emailToUser participants
    if ¬ sameKeySet (dkeys percents) (dkeys e2u) then
      .error "Percents keys must match participants emails."
    else
      let totalPct := round6 (sumValues percents)
      if 1/1000000 < |totalPct - 100| then
        .error "Percents must sum to 100."
      else
        let sharesAndRunning := percents.foldl (fun (acc : List (String × ℚ) × ℚ) ep =>
          let share := round2 (amount * (ep.2 / 100))
          (dinsert acc.1 ep.1 share, acc.2 + share)) ([], 0)
        let shares := sharesAndRunning.1
        let running := sharesAndRunning.2
        let remainder := round2 (amount - round2 running)
        let shares2 :=
          if remainder ≠ 0 then
            match percents.head? with
            | some fk => dinsert shares fk.1 (round2 (dgetD shares fk.1 0 + remainder))
            | none => shares
          else shares
        .ok (shares2.foldl (fun m ev =>
          match dget e2u ev.1 with
          | some u => dinsert m u ev.2
          | none => m) [])

/-- `SharesSplit.calculate_shares` (integer weights). -/
def sharesSplitShares (amount : ℚ) (participants : List User)
    (details : Option Details) : Except String (List (User × ℚ)) :=
  match details.bind Details.shares with
  | none => .error "SharesSplit requires details['shares']."
  | some sharesMap =>
    let e2u := emailToUser participants
    if ¬ sameKeySet (dkeys sharesMap) (dkeys e2u) then
      .error "Shares keys must match participants emails."
    else
      let totalShares : ℤ := (sharesMap.map Prod.snd).sum
      if totalShares ≤ 0 then
        .error "Total shares must be positive."
      else
        let sharesAndRunning := sharesMap.foldl (fun (acc : List (String × ℚ) × ℚ) es =>
          let part := round2 (amount * ((es.2 : ℚ) / (totalShares : ℚ)))
          (dinsert acc.1 es.1 part, acc.2 + part)) ([], 0)
        let shares := sharesAndRunning.1
        let running := sharesAndRunning.2
        let remainder := round2 (amount - round2 running)
        let shares2 :=
          if remainder ≠ 0 then
            match sharesMap.head? with
            | some fk => dinsert shares fk.1 (round2 (dgetD shares fk.1 0 + remainder))
            | none => shares
          else shares
        .ok (shares2.foldl (fun m ev =>
          match dget e2u ev.1 with
          | some u => dinsert m u ev.2
          | none => m) [])

/-- `Expense` dataclass. -/
structure Expense where
  description : String
  amount : ℚ
  payer : User
  participants : List User
  strategyName : String
  details : Option Details := none
deriving DecidableEq

/-- Python `str.lower()` (ASCII; mapping each character). -/
def pyLower (s : String) : String := ⟨s.data.map Char.toLower⟩

/-- Python `str.strip()`: drop leading and trailing whitespace. -/
def pyStrip (s : String) : String :=
  ⟨((s.data.dropWhile Char.isWhitespace).reverse.dropWhile Char.isWhitespace).reverse⟩

/-- `strategy_from_name` composed with the chosen strategy's
`calculate_shares` (`Expense.calculate_splits`). -/
def calculateSplits (e : Expense) : Except String (List (User × ℚ)) :=
  let key := pyLower (pyStrip e.strategyName)
  if key = "equal" then
    equalSplitShares e.amount e.participants
  else if key = "unequal" ∨ key = "amounts" then
    unequalSplitShares e.amount e.participants e.details
  else if key = "percent" ∨ key = "percentage" ∨ key = "percents" then
    percentSplitShares e.amount e.participants e.details
  else if key = "shares" ∨ key = "ratio" then
    sharesSplitShares e.amount e.participants e.details
  else
    .error ("Unknown split type '" ++ e.strategyName ++ "'")

/-! ## Debt manager -/

/-- The ledger: `map[(debtor_email, creditor_email)] = amount`. -/
abbrev Ledger := List ((String × String) × ℚ)

/-- `DebtManager._add_debt`. -/
def addDebt (debts : Ledger) (debtor creditor : User) (amount : ℚ) : Ledger :=
  if debtor.email = creditor.email then debts
  else
    let key := (debtor.email, creditor.email)
    let debts1 := dinsert debts key (round2 (dgetD debts key 0 + amount))
    if dgetD debts1 key 0 ≤ eps then derase debts1 key else debts1

/-- One step of the net-balance fold: process a single ledger entry
(`net[debtor] -= amt; net[creditor] += amt`, each store rounded). -/
def netStep (net : List (String × ℚ)) (entry : (String × String) × ℚ) :
    List (String × ℚ) :=
  let net1 := dinsert net entry.1.1 (round2 (dgetD net entry.1.1 0 - entry.2))
  dinsert net1 entry.1.2 (round2 (dgetD net1 entry.1.2 0 + entry.2))

/-- Net balance per user, iterating the ledger in insertion order. -/
def computeNet (debts : Ledger) : List (String × ℚ) :=
  debts.foldl netStep []

/-- Stable ascending insertion by amount (`list.sort(key=lambda x: x[1])`
is a stable ascending sort; its output is uniquely determined, so this
insertion sort computes the same list). -/
def insertByAmt (x : String × ℚ) : List (String × ℚ) → List (String × ℚ)
  | [] => [x]
  | y :: ys => if x.2 ≤ y.2 then x :: y :: ys else y :: insertByAmt x ys

/-- Stable ascending sort by amount. -/
def sortByAmt (l : List (String × ℚ)) : List (String × ℚ) := l.foldr insertByAmt []

/-- The two-pointer greedy matching loop of `simplify_debts`, written as a
recursion on the two worklists: one loop iteration pays
`round2 (min d_amt c_amt)`, records it in `simplified`, and advances the
pointer(s) whose remainder fell to `≤ eps`.  By `greedy_advances` the case
in which neither pointer advances cannot occur. -/
def greedyLoop (debtors creditors : List (String × ℚ)) (simplified : Ledger) : Ledger :=
  match debtors, creditors with
  | [], _ => simplified
  | _ :: _, [] => simplified
  | (d, dAmt) :: ds, (c, cAmt) :: cs =>
    let pay := round2 (min dAmt cAmt)
    let simplified1 :=
      if 0 < pay then
        dinsert simplified (d, c) (round2 (dgetD simplified (d, c) 0 + pay))
      else simplified
    let dRem := round2 (dAmt - pay)
    let cRem := round2 (cAmt - pay)
    if hd : dRem ≤ eps then
      if cRem ≤ eps then greedyLoop ds cs simplified1
      else greedyLoop ds ((c, cRem) :: cs) simplified1
    else
      if hc : cRem ≤ eps then greedyLoop ((d, dRem) :: ds) cs simplified1
      else absurd (greedy_advances dAmt cAmt) (not_or.mpr ⟨hd, hc⟩)
termination_by debtors.length + creditors.length
decreasing_by
  · simp; omega
  · simp
  · simp

/-- `DebtManager.simplify_debts`. -/
def simplifyDebts (debts : Ledger) : Ledger :=
  let net := computeNet debts
  let debtors := (net.filter (fun ub => ub.2 < -eps)).map (fun ub => (ub.1, -ub.2))
  let creditors := net.filter (fun ub => eps < ub.2)
  let debtorsSorted := sortByAmt debtors
  let creditorsSorted := sortByAmt creditors
  let simplified := greedyLoop debtorsSorted creditorsSorted []
  simplified.filter (fun kv => eps < kv.2)

/-- `DebtManager.update_debts_for_expense`, state-passing: the returned
ledger is the debt map as it stands when the call returns or the
exception escapes (splits are computed before any `_add_debt`). -/
def updateDebtsRun (debts : Ledger) (e : Expense) : Ledger × Option String :=
  match calculateSplits e with
  | .error m => (debts, some m)
  | .ok splits =>
    let debts1 := splits.foldl (fun d ps =>
      if ps.1.email = e.payer.email then d else addDebt d ps.1 e.payer ps.2) debts
    (simplifyDebts debts1, none)

/-- The ledger mutation of `DebtManager.settle_up`, before the final
`simplify_debts` call. -/
def settleUpRaw (debts : Ledger) (payer receiver : User) (amount : ℚ) : Ledger :=
  let key := (payer.email, receiver.email)
  match dget debts key with
  | none =>
    let oppKey := (receiver.email, payer.email)
    match dget debts oppKey with
    | some v => dinsert debts oppKey (round2 (v + amount))
    | none => dinsert debts oppKey (round2 amount)
  | some v =>
    let debts1 := dinsert debts key (round2 (v - amount))
    if dgetD debts1 key 0 ≤ eps then derase debts1 key else debts1

/-- `DebtManager.settle_up`. -/
def settleUp (debts : Ledger) (payer receiver : User) (amount : ℚ) : Ledger :=
  simplifyDebts (settleUpRaw debts payer receiver amount)

/-- Formatting of an amount with two decimals (the `:.2f` field). -/
def moneyStr (q : ℚ) : String :=
  let c : ℤ := round (100 * q)
  let sgn := if c < 0 then "-" else ""
  let n := c.natAbs
  let r := n % 100
  sgn ++ toString (n / 100) ++ "." ++ (if r < 10 then "0" ++ toString r else toString r)

/-- Ordering used by `sorted(self.debts.items())`: lexicographic on the
(debtor, creditor) key pair (keys are unique, so the amount is never
compared). -/
def keyLe (a b : (String × String) × ℚ) : Prop :=
  a.1.1 < b.1.1 ∨ (a.1.1 = b.1.1 ∧ ¬ b.1.2 < a.1.2)

instance (a b : (String × String) × ℚ) : Decidable (keyLe a b) := by
  unfold keyLe; infer_instance

/-- Stable insertion for `sorted(...)` on items. -/
def insertByKey (x : (String × String) × ℚ) : Ledger → Ledger
  | [] => [x]
  | y :: ys => if keyLe x y then x :: y :: ys else y :: insertByKey x ys

/-- `sorted(self.debts.items())`. -/
def sortByKey (l : Ledger) : Ledger := l.foldr insertByKey []

/-- `DebtManager.summary_lines`. -/
def summaryLines (debts : Ledger) (usersByEmail : List (String × User)) : List String :=
  let out := (sortByKey debts).map (fun kv =>
    let d := (dgetD usersByEmail kv.1.1 ⟨kv.1.1, kv.1.1⟩).name
    let c := (dgetD usersByEmail kv.1.2 ⟨kv.1.2, kv.1.2⟩).name
    d ++ " owes " ++ c ++ " ₹" ++ moneyStr kv.2)
  if out.isEmpty then ["No outstanding debts."] else out

/-! ## Group -/

/-- `Group` dataclass: name, members, expense history, debt ledger. -/
structure Group where
  name : String
  members : List User
  expenses : List Expense := []
  debts : Ledger := []
deriving DecidableEq

/-- `Group.add_expense`, state-passing: membership check first, then the
expense is appended to the history, then the debts are updated; if the
split configuration is invalid the error escapes after the append. -/
def addExpense (g : Group) (e : Expense) : Group × Option String :=
  let emails := (g.members.map User.email)
  if (e.participants ++ [e.payer]).all (fun p => p.email ∈ emails) then
    let g1 : Group := { g with expenses := g.expenses ++ [e] }
    match updateDebtsRun g1.debts e with
    | (_, some m) => (g1, some m)
    | (d, none) => ({ g1 with debts := d }, none)
  else
    (g, some ("User not in group '" ++ g.name ++ "'."))

/-! ## A structurally recursive twin of the greedy loop

`greedyLoop` mirrors the source's `while` loop one iteration per call, so
it recurses by well-founded recursion; `payOut`/`greedyRun` compute the
same result by structural recursion (one debtor at a time), which lets
concrete ledgers be evaluated by the kernel.  `greedyLoop_eq_run` proves
the two agree on all inputs. -/

/-- Pay the current debtor's remaining amount into the creditor worklist;
returns the updated accumulator and the remaining creditors. -/
def payOut (d : String) (dAmt : ℚ) (creditors : List (String × ℚ)) (simplified : Ledger) :
    Ledger × List (String × ℚ) :=
  match creditors with
  | [] => (simplified, [])
  | (c, cAmt) :: cs =>
    let pay := round2 (min dAmt cAmt)
    let simplified1 :=
      if 0 < pay then
        dinsert simplified (d, c) (round2 (dgetD simplified (d, c) 0 + pay))
      else simplified
    let dRem := round2 (dAmt - pay)
    let cRem := round2 (cAmt - pay)
    if hd : dRem ≤ eps then
      if cRem ≤ eps then (simplified1, cs)
      else (simplified1, (c, cRem) :: cs)
    else
      if hc : cRem ≤ eps then payOut d dRem cs simplified1
      else absurd (greedy_advances dAmt cAmt) (not_or.mpr ⟨hd, hc⟩)
termination_by structural creditors

/-- Structural version of `greedyLoop`: process the debtors in order,
each one paying into the creditor worklist. -/
def greedyRun (debtors creditors : List (String × ℚ)) (simplified : Ledger) : Ledger :=
  match debtors with
  | [] => simplified
  | (d, dAmt) :: ds =>
    let sc := payOut d dAmt creditors simplified
    greedyRun ds sc.2 sc.1
termination_by structural debtors

theorem greedyRun_nil_creditors (debtors : List (String × ℚ)) (simplified : Ledger) :
    greedyRun debtors [] simplified = simplified := by
  induction debtors with
  | nil => rw [greedyRun]
  | cons hd tl ih =>
    obtain ⟨d, dAmt⟩ := hd
    rw [greedyRun, payOut]
    exact ih

set_option maxHeartbeats 1000000 in
theorem greedyLoop_eq_run (debtors creditors : List (String × ℚ)) (simplified : Ledger) :
    greedyLoop debtors creditors simplified = greedyRun debtors creditors simplified := by
  induction debtors, creditors, simplified using greedyLoop.induct with
  | case1 simplified creditors => simp only [greedyLoop, greedyRun]
  | case2 simplified d ds =>
    simp only [greedyLoop]
    rw [greedyRun_nil_creditors]
  | case3 simplified d dAmt ds c cAmt cs pay simplified1 dRem cRem hd hc ih =>
    simp only [greedyLoop, dif_pos hd, if_pos hc]
    show greedyLoop ds cs simplified1 = greedyRun ((d, dAmt) :: ds) ((c, cAmt) :: cs) simplified
    rw [ih]
    simp only [greedyRun, payOut, dif_pos hd, if_pos hc]
    rfl
  | case4 simplified d dAmt ds c cAmt cs pay simplified1 dRem cRem hd hc ih =>
    simp only [greedyLoop, dif_pos hd, if_neg hc]
    show greedyLoop ds ((c, cRem) :: cs) simplified1 =
      greedyRun ((d, dAmt) :: ds) ((c, cAmt) :: cs) simplified
    rw [ih]
    simp only [greedyRun, payOut, dif_pos hd, if_neg hc]
    rfl
  | case5 simplified d dAmt ds c cAmt cs pay simplified1 dRem cRem hd hc ih =>
    simp only [greedyLoop, dif_neg hd, dif_pos hc]
    show greedyLoop ((d, dRem) :: ds) cs simplified1 =
      greedyRun ((d, dAmt) :: ds) ((c, cAmt) :: cs) simplified
    rw [ih]
    simp only [greedyRun, payOut, dif_neg hd, dif_pos hc]
    rfl
  | case6 simplified d dAmt ds c cAmt cs pay dRem cRem hd hc =>
    exact absurd (greedy_advances dAmt cAmt) (not_or.mpr ⟨hd, hc⟩)

/-! ## Proof-side notions: sortedness, net folds, balance partitions -/

/-- Ascending by amount. -/
def sortedByAmt (l : List (String × ℚ)) : Prop := List.Chain' (fun a b => a.2 ≤ b.2) l

theorem insertByAmt_perm (x : String × ℚ) (l : List (String × ℚ)) :
    (insertByAmt x l).Perm (x :: l) := by
  induction l with
  | nil => rfl
  | cons y ys ih =>
    rw [insertByAmt]
    by_cases h : x.2 ≤ y.2
    · rw [if_pos h]
    · rw [if_neg h]
      exact ((ih.cons y).trans (List.Perm.swap x y ys))

theorem sortByAmt_perm (l : List (String × ℚ)) : (sortByAmt l).Perm l := by
  induction l with
  | nil => rfl
  | cons x xs ih =>
    rw [sortByAmt, List.foldr_cons]
    exact (insertByAmt_perm x _).trans (ih.cons x)

theorem insertByAmt_sorted (x : String × ℚ) {l : List (String × ℚ)}
    (h : sortedByAmt l) : sortedByAmt (insertByAmt x l) := by
  induction l with
  | nil => exact List.chain'_singleton x
  | cons y ys ih =>
    rw [insertByAmt]
    by_cases hxy : x.2 ≤ y.2
    · rw [if_pos hxy]
      exact h.cons hxy
    · rw [if_neg hxy]
      rw [sortedByAmt, List.chain'_cons'] at h ⊢
      refine ⟨fun z hz => ?_, ih h.2⟩
      have hmem : z ∈ (insertByAmt x ys).head? := hz
      rcases ys with _ | ⟨y2, ys2⟩
      · simp [insertByAmt] at hmem
        rw [← hmem]
        linarith [not_le.mp hxy]
      · rw [insertByAmt] at hmem
        by_cases h2 : x.2 ≤ y2.2
        · rw [if_pos h2] at hmem
          simp at hmem
          rw [← hmem]
          linarith [not_le.mp hxy]
        · rw [if_neg h2] at hmem
          simp at hmem
          rw [← hmem]
          exact h.1 y2 rfl

theorem sortByAmt_sorted (l : List (String × ℚ)) : sortedByAmt (sortByAmt l) := by
  induction l with
  | nil => exact List.chain'_nil
  | cons x xs ih =>
    rw [sortByAmt, List.foldr_cons]
    exact insertByAmt_sorted x ih

theorem sortByAmt_eq_self {l : List (String × ℚ)} (h : sortedByAmt l) :
    sortByAmt l = l := by
  induction l with
  | nil => rfl
  | cons x xs ih =>
    rw [sortedByAmt, List.chain'_cons'] at h
    rw [sortByAmt, List.foldr_cons, ← sortByAmt, ih h.2]
    cases xs with
    | nil => rfl
    | cons y ys =>
      rw [insertByAmt, if_pos (h.1 y rfl)]

/-- Folding ledger entries into a net-balance dict, from a given start. -/
def netFold (n : List (String × ℚ)) (entries : Ledger) : List (String × ℚ) :=
  entries.foldl netStep n

theorem computeNet_eq_netFold (debts : Ledger) : computeNet debts = netFold [] debts := rfl

theorem netFold_cons (n : List (String × ℚ)) (e : (String × String) × ℚ) (l : Ledger) :
    netFold n (e :: l) = netFold (netStep n e) l := rfl

theorem netFold_nil (n : List (String × ℚ)) : netFold n [] = n := rfl

theorem netStep_cent {n : List (String × ℚ)} (hc : ∀ x ∈ n, IsCent x.2)
    (e : (String × String) × ℚ) : ∀ x ∈ netStep n e, IsCent x.2 := by
  intro x hx
  rw [netStep] at hx
  rcases mem_dinsert hx with hx1 | hx1
  · rcases mem_dinsert hx1 with hx2 | hx2
    · exact hc x hx2
    · rw [hx2]; exact isCent_round2 _
  · rw [hx1]; exact isCent_round2 _

theorem netFold_cent {l : Ledger} : ∀ {n : List (String × ℚ)},
    (∀ x ∈ n, IsCent x.2) → ∀ x ∈ netFold n l, IsCent x.2 := by
  induction l with
  | nil => intro n hc; exact hc
  | cons e l ih =>
    intro n hc
    rw [netFold_cons]
    exact ih (netStep_cent hc e)

theorem netStep_wf {n : List (String × ℚ)} (h : (dkeys n).Nodup)
    (e : (String × String) × ℚ) : (dkeys (netStep n e)).Nodup := by
  rw [netStep]
  exact dkeys_nodup_dinsert (dkeys_nodup_dinsert h _ _) _ _

theorem netFold_wf {l : Ledger} : ∀ {n : List (String × ℚ)},
    (dkeys n).Nodup → (dkeys (netFold n l)).Nodup := by
  induction l with
  | nil => intro n h; exact h
  | cons e l ih =>
    intro n h
    rw [netFold_cons]
    exact ih (netStep_wf h e)

theorem computeNet_cent (debts : Ledger) : ∀ x ∈ computeNet debts, IsCent x.2 :=
  netFold_cent (by intro x hx; simp at hx)

theorem computeNet_wf (debts : Ledger) : (dkeys (computeNet debts)).Nodup :=
  netFold_wf List.nodup_nil


/-- The debtors extracted from a net dict: negative balances, negated. -/
def negPart (m : List (String × ℚ)) : List (String × ℚ) :=
  (m.filter (fun ub => ub.2 < -eps)).map (fun ub => (ub.1, -ub.2))

/-- The creditors extracted from a net dict. -/
def posPart (m : List (String × ℚ)) : List (String × ℚ) :=
  m.filter (fun ub => eps < ub.2)

theorem negPart_nil : negPart [] = [] := rfl

theorem posPart_nil : posPart [] = [] := rfl

theorem negPart_cons (x : String × ℚ) (m : List (String × ℚ)) :
    negPart (x :: m) = (if x.2 < -eps then [(x.1, -x.2)] else []) ++ negPart m := by
  by_cases h : x.2 < -eps
  · simp [negPart, List.filter_cons, h]
  · simp [negPart, List.filter_cons, h]

theorem posPart_cons (x : String × ℚ) (m : List (String × ℚ)) :
    posPart (x :: m) = (if eps < x.2 then [x] else []) ++ posPart m := by
  by_cases h : eps < x.2
  · simp [posPart, List.filter_cons, h]
  · simp [posPart, List.filter_cons, h]

theorem negPart_append (m1 m2 : List (String × ℚ)) :
    negPart (m1 ++ m2) = negPart m1 ++ negPart m2 := by
  simp [negPart, List.filter_append]

theorem posPart_append (m1 m2 : List (String × ℚ)) :
    posPart (m1 ++ m2) = posPart m1 ++ posPart m2 := by
  simp [posPart, List.filter_append]

theorem dkeys_negPart_sublist (m : List (String × ℚ)) :
    (dkeys (negPart m)).Sublist (dkeys m) := by
  have h1 : dkeys (negPart m) = dkeys (m.filter (fun ub => ub.2 < -eps)) := by
    simp [negPart, dkeys, List.map_map]
  rw [h1]
  exact List.Sublist.map Prod.fst (List.filter_sublist m)

theorem dkeys_posPart_sublist (m : List (String × ℚ)) :
    (dkeys (posPart m)).Sublist (dkeys m) :=
  List.Sublist.map Prod.fst (List.filter_sublist m)

theorem mem_dkeys_negPart {m : List (String × ℚ)} {u : String} :
    u ∈ dkeys (negPart m) ↔ ∃ b, (u, b) ∈ m ∧ b < -eps := by
  simp only [negPart, dkeys, List.map_map, List.mem_map, List.mem_filter,
    Function.comp, decide_eq_true_eq]
  constructor
  · intro ⟨ub, ⟨hm, hb⟩, he⟩
    exact ⟨ub.2, by rw [← he]; exact hm, hb⟩
  · intro ⟨b, hm, hb⟩
    exact ⟨(u, b), ⟨hm, hb⟩, rfl⟩

theorem mem_dkeys_posPart {m : List (String × ℚ)} {u : String} :
    u ∈ dkeys (posPart m) ↔ ∃ b, (u, b) ∈ m ∧ eps < b := by
  simp only [posPart, dkeys, List.mem_map, List.mem_filter, decide_eq_true_eq]
  constructor
  · intro ⟨ub, ⟨hm, hb⟩, he⟩
    exact ⟨ub.2, by rw [← he]; exact hm, hb⟩
  · intro ⟨b, hm, hb⟩
    exact ⟨(u, b), ⟨hm, hb⟩, rfl⟩

/-- In a dict with distinct keys, membership determines `dget`. -/
theorem dget_of_mem_wf {K V : Type} [DecidableEq K] {m : List (K × V)}
    (h : (dkeys m).Nodup) {u : K} {b : V} (hm : (u, b) ∈ m) : dget m u = some b := by
  induction m with
  | nil => simp at hm
  | cons kv rest ih =>
    obtain ⟨k1, v1⟩ := kv
    rw [dkeys_cons, List.nodup_cons] at h
    rcases List.mem_cons.mp hm with he | he
    · obtain ⟨he1, he2⟩ := Prod.mk.injEq .. ▸ he
      rw [dget, if_pos (show (k1, v1).1 = u from he1.symm)]
      exact congrArg some he2.symm
    · have hu : u ∈ dkeys rest := List.mem_map_of_mem Prod.fst he
      have hne : (k1, v1).1 ≠ u := by
        intro hk
        apply h.1
        show (k1, v1).1 ∈ dkeys rest
        rw [show (k1, v1).1 = u from hk]
        exact hu
      rw [dget, if_neg hne]
      exact ih h.2 he

/-- In a dict with distinct keys, a key determines its value. -/
theorem dkeys_nodup_val_unique {m : List (String × ℚ)} (h : (dkeys m).Nodup)
    {u : String} {b b2 : ℚ} (h1 : (u, b) ∈ m) (h2 : (u, b2) ∈ m) : b = b2 := by
  have e1 := dget_of_mem_wf h h1
  have e2 := dget_of_mem_wf h h2
  rw [e1] at e2
  injection e2

/-- Debtor and creditor key sets extracted from a well-formed net dict are
disjoint. -/
theorem negPart_posPart_disjoint {m : List (String × ℚ)} (h : (dkeys m).Nodup)
    {u : String} (h1 : u ∈ dkeys (negPart m)) : u ∉ dkeys (posPart m) := by
  intro h2
  obtain ⟨b, hm, hb⟩ := mem_dkeys_negPart.mp h1
  obtain ⟨b2, hm2, hb2⟩ := mem_dkeys_posPart.mp h2
  have : b = b2 := dkeys_nodup_val_unique h hm hm2
  rw [this] at hb
  have : (0 : ℚ) < eps := by norm_num [eps]
  linarith


theorem dget_isSome_of_mem {K V : Type} [DecidableEq K] {m : List (K × V)} {u : K}
    (h : u ∈ dkeys m) : ∃ v, dget m u = some v := by
  induction m with
  | nil => simp [dkeys] at h
  | cons kv rest ih =>
    obtain ⟨k1, v1⟩ := kv
    by_cases he : k1 = u
    · exact ⟨v1, by rw [dget, if_pos he]⟩
    · rw [dkeys_cons, List.mem_cons] at h
      rcases h with h | h
      · exact absurd h.symm he
      · obtain ⟨v, hv⟩ := ih h
        exact ⟨v, by rw [dget, if_neg he]; exact hv⟩

theorem dget_mem {K V : Type} [DecidableEq K] {m : List (K × V)} {k : K} {w : V}
    (h : dget m k = some w) : (k, w) ∈ m := by
  induction m with
  | nil => simp [dget] at h
  | cons kv rest ih =>
    obtain ⟨k1, v1⟩ := kv
    rw [dget] at h
    by_cases he : k1 = k
    · rw [if_pos he] at h
      injection h with h
      rw [← he, ← h]
      exact List.mem_cons_self _ _
    · rw [if_neg he] at h
      exact List.mem_cons_of_mem _ (ih h)

theorem values_dinsert_cent {m : List (String × ℚ)} (hm : ∀ x ∈ m, IsCent x.2)
    {k : String} {v : ℚ} (hv : IsCent v) : ∀ x ∈ dinsert m k v, IsCent x.2 := by
  intro x hx
  rcases mem_dinsert hx with h | h
  · exact hm x h
  · rw [h]; exact hv

theorem sumValues_dinsert_fresh {K : Type} [DecidableEq K] {m : List (K × ℚ)} {k : K}
    (h : k ∉ dkeys m) (v : ℚ) : sumValues (dinsert m k v) = sumValues m + v := by
  rw [dinsert_eq_append h, sumValues_append, sumValues_cons, sumValues_nil]
  simp

theorem negPart_dinsert_fresh {m : List (String × ℚ)} {k : String}
    (h : k ∉ dkeys m) (v : ℚ) :
    negPart (dinsert m k v) = negPart m ++ (if v < -eps then [(k, -v)] else []) := by
  rw [dinsert_eq_append h, negPart_append]
  congr 1
  by_cases hv : v < -eps
  · simp [negPart, List.filter_cons, hv]
  · simp [negPart, List.filter_cons, hv]

theorem posPart_dinsert_fresh {m : List (String × ℚ)} {k : String}
    (h : k ∉ dkeys m) (v : ℚ) :
    posPart (dinsert m k v) = posPart m ++ (if eps < v then [(k, v)] else []) := by
  rw [dinsert_eq_append h, posPart_append]
  congr 1
  by_cases hv : eps < v
  · simp [posPart, List.filter_cons, hv]
  · simp [posPart, List.filter_cons, hv]

theorem negPart_dinsert_stable {m : List (String × ℚ)} {k : String} {w v : ℚ}
    (h : dget m k = some w) (hw : ¬ w < -eps) (hv : ¬ v < -eps) :
    negPart (dinsert m k v) = negPart m := by
  induction m with
  | nil => simp [dget] at h
  | cons kv rest ih =>
    obtain ⟨k1, w1⟩ := kv
    rw [dget] at h
    by_cases he : k1 = k
    · rw [if_pos he] at h
      injection h with h
      rw [dinsert, if_pos (show (k1, w1).1 = k from he), negPart_cons, negPart_cons]
      have hw1 : ¬ (k1, w1).2 < -eps := by
        rw [h]; exact hw
      rw [if_neg (show ¬ ((k, v) : String × ℚ).2 < -eps from hv), if_neg hw1]
    · rw [if_neg he] at h
      rw [dinsert, if_neg (show ¬ (k1, w1).1 = k from he), negPart_cons, negPart_cons, ih h]

theorem posPart_dinsert_stable {m : List (String × ℚ)} {k : String} {w v : ℚ}
    (h : dget m k = some w) (hw : ¬ eps < w) (hv : ¬ eps < v) :
    posPart (dinsert m k v) = posPart m := by
  induction m with
  | nil => simp [dget] at h
  | cons kv rest ih =>
    obtain ⟨k1, w1⟩ := kv
    rw [dget] at h
    by_cases he : k1 = k
    · rw [if_pos he] at h
      injection h with h
      rw [dinsert, if_pos (show (k1, w1).1 = k from he), posPart_cons, posPart_cons]
      have hw1 : ¬ eps < (k1, w1).2 := by
        rw [h]; exact hw
      rw [if_neg (show ¬ eps < ((k, v) : String × ℚ).2 from hv), if_neg hw1]
    · rw [if_neg he] at h
      rw [dinsert, if_neg (show ¬ (k1, w1).1 = k from he), posPart_cons, posPart_cons, ih h]

theorem map_replace_id {l : List (String × ℚ)} {k : String} {x : String × ℚ}
    (h : k ∉ dkeys l) : l.map (fun ub => if ub.1 = k then x else ub) = l := by
  induction l with
  | nil => rfl
  | cons y ys ih =>
    rw [dkeys_cons, List.mem_cons] at h
    push_neg at h
    rw [List.map_cons, if_neg (fun he => h.1 he.symm), ih h.2]

theorem negPart_dinsert_update {m : List (String × ℚ)} (hm : (dkeys m).Nodup)
    {k : String} {w v : ℚ} (h : dget m k = some w) (hw : w < -eps) (hv : v < -eps) :
    negPart (dinsert m k v) =
      (negPart m).map (fun ub => if ub.1 = k then (k, -v) else ub) := by
  induction m with
  | nil => simp [dget] at h
  | cons kv rest ih =>
    obtain ⟨k1, w1⟩ := kv
    rw [dkeys_cons, List.nodup_cons] at hm
    rw [dget] at h
    by_cases he : k1 = k
    · rw [if_pos he] at h
      injection h with h
      have hw1 : (k1, w1).2 < -eps := by rw [h]; exact hw
      have hk : k ∉ dkeys (negPart rest) := by
        intro hmem
        apply hm.1
        rw [he]
        exact (dkeys_negPart_sublist rest).mem hmem
      rw [dinsert, if_pos (show (k1, w1).1 = k from he), negPart_cons, negPart_cons,
        if_pos (show ((k, v) : String × ℚ).2 < -eps from hv), if_pos hw1,
        List.map_append, map_replace_id hk, List.map_cons, List.map_nil,
        if_pos (show ((k1, -(k1, w1).2) : String × ℚ).1 = k from he)]
    · rw [if_neg he] at h
      rw [dinsert, if_neg (show ¬ (k1, w1).1 = k from he), negPart_cons, negPart_cons,
        ih hm.2 h, List.map_append]
      congr 1
      by_cases hw1 : (k1, w1).2 < -eps
      · rw [if_pos hw1, List.map_cons, List.map_nil,
          if_neg (show ¬ (((k1, w1).1, -(k1, w1).2) : String × ℚ).1 = k from he)]
      · rw [if_neg hw1, List.map_nil]

theorem posPart_dinsert_update {m : List (String × ℚ)} (hm : (dkeys m).Nodup)
    {k : String} {w v : ℚ} (h : dget m k = some w) (hw : eps < w) (hv : eps < v) :
    posPart (dinsert m k v) =
      (posPart m).map (fun ub => if ub.1 = k then (k, v) else ub) := by
  induction m with
  | nil => simp [dget] at h
  | cons kv rest ih =>
    obtain ⟨k1, w1⟩ := kv
    rw [dkeys_cons, List.nodup_cons] at hm
    rw [dget] at h
    by_cases he : k1 = k
    · rw [if_pos he] at h
      injection h with h
      have hw1 : eps < (k1, w1).2 := by rw [h]; exact hw
      have hk : k ∉ dkeys (posPart rest) := by
        intro hmem
        apply hm.1
        rw [he]
        exact (dkeys_posPart_sublist rest).mem hmem
      rw [dinsert, if_pos (show (k1, w1).1 = k from he), posPart_cons, posPart_cons,
        if_pos (show eps < ((k, v) : String × ℚ).2 from hv), if_pos hw1,
        List.map_append, map_replace_id hk, List.map_cons, List.map_nil,
        if_pos (show ((k1, w1) : String × ℚ).1 = k from he)]
    · rw [if_neg he] at h
      rw [dinsert, if_neg (show ¬ (k1, w1).1 = k from he), posPart_cons, posPart_cons,
        ih hm.2 h, List.map_append]
      congr 1
      by_cases hw1 : eps < (k1, w1).2
      · rw [if_pos hw1, List.map_cons, List.map_nil,
          if_neg (show ¬ ((k1, w1) : String × ℚ).1 = k from he)]
      · rw [if_neg hw1, List.map_nil]


/-- Worklist precondition: every amount is a cent value above the epsilon
threshold. -/
def Good (l : List (String × ℚ)) : Prop := ∀ x ∈ l, IsCent x.2 ∧ eps < x.2

theorem good_nil : Good [] := by intro x hx; simp at hx

theorem good_cons {x : String × ℚ} {l : List (String × ℚ)} (hx : IsCent x.2 ∧ eps < x.2)
    (hl : Good l) : Good (x :: l) := by
  intro y hy
  rcases List.mem_cons.mp hy with h | h
  · rw [h]; exact hx
  · exact hl y h

theorem Good.tail {x : String × ℚ} {l : List (String × ℚ)} (h : Good (x :: l)) : Good l :=
  fun y hy => h y (List.mem_cons_of_mem x hy)

theorem Good.head {x : String × ℚ} {l : List (String × ℚ)} (h : Good (x :: l)) :
    IsCent x.2 ∧ eps < x.2 := h x (List.mem_cons_self x l)

theorem Good.perm {l l2 : List (String × ℚ)} (h : Good l) (hp : l2.Perm l) : Good l2 :=
  fun y hy => h y (hp.mem_iff.mp hy)

theorem good_sum_nonneg {l : List (String × ℚ)} (h : Good l) : 0 ≤ sumValues l := by
  induction l with
  | nil => norm_num [sumValues_nil]
  | cons x xs ih =>
    rw [sumValues_cons]
    have h1 := (h.head).2
    have h2 := ih h.tail
    have : (0 : ℚ) < eps := by norm_num [eps]
    linarith

theorem good_sum_pos {x : String × ℚ} {l : List (String × ℚ)} (h : Good (x :: l)) :
    0 < sumValues (x :: l) := by
  rw [sumValues_cons]
  have h1 := (h.head).2
  have h2 := good_sum_nonneg h.tail
  have : (0 : ℚ) < eps := by norm_num [eps]
  linarith

/-- A `Good` list with sum 0 is empty. -/
theorem good_sum_zero_nil {l : List (String × ℚ)} (h : Good l) (h0 : sumValues l = 0) :
    l = [] := by
  cases l with
  | nil => rfl
  | cons x xs => exact absurd h0 (by linarith [good_sum_pos h])

/-- One net step conserves the sum when all values and the entry amount are
cent values. -/
theorem netStep_sum {n : List (String × ℚ)} (hc : ∀ x ∈ n, IsCent x.2)
    {e : (String × String) × ℚ} (he : IsCent e.2) :
    sumValues (netStep n e) = sumValues n := by
  rw [netStep]
  have hstep : ∀ (m : List (String × ℚ)), (∀ x ∈ m, IsCent x.2) → ∀ (u : String) (q : ℚ),
      IsCent q → sumValues (dinsert m u (round2 (dgetD m u 0 + q))) = sumValues m + q := by
    intro m hm u q hq
    rcases hg : dget m u with _ | w
    · have hfresh : u ∉ dkeys m := by
        intro hmem
        obtain ⟨v, hv⟩ := dget_isSome_of_mem hmem
        rw [hv] at hg
        exact Option.noConfusion hg
      rw [dgetD, hg, Option.getD_none, zero_add, round2_of_isCent hq,
        sumValues_dinsert_fresh hfresh q]
    · have hw : IsCent w := hm (u, w) (dget_mem hg)
      rw [dgetD, hg, Option.getD_some, round2_of_isCent (hw.add hq), sumValues_dinsert hg]
      ring
  have h1 := hstep n hc e.1.1 (-e.2) he.neg
  rw [show dgetD n e.1.1 0 + -e.2 = dgetD n e.1.1 0 - e.2 by ring] at h1
  have hc1 : ∀ x ∈ dinsert n e.1.1 (round2 (dgetD n e.1.1 0 - e.2)), IsCent x.2 :=
    values_dinsert_cent hc (isCent_round2 _)
  rw [hstep _ hc1 e.1.2 e.2 he, h1]
  ring

theorem netFold_sum {l : Ledger} (hl : ∀ kv ∈ l, IsCent kv.2) :
    ∀ {n : List (String × ℚ)}, (∀ x ∈ n, IsCent x.2) →
    sumValues (netFold n l) = sumValues n := by
  induction l with
  | nil => intro n _; rfl
  | cons e l ih =>
    intro n hc
    rw [netFold_cons, ih (fun kv hkv => hl kv (List.mem_cons_of_mem e hkv)) (netStep_cent hc e),
      netStep_sum hc (hl e (List.mem_cons_self e l))]

/-- The net balances of a cent-valued ledger sum to zero. -/
theorem computeNet_sum_zero {l : Ledger} (hl : ∀ kv ∈ l, IsCent kv.2) :
    sumValues (computeNet l) = 0 := by
  rw [computeNet_eq_netFold, netFold_sum hl (by intro x hx; simp at hx), sumValues_nil]

/-- For cent-valued net dicts, debtor magnitudes and creditor magnitudes
balance against the total. -/
theorem sum_negPart_sub_posPart {l : List (String × ℚ)} (hc : ∀ x ∈ l, IsCent x.2) :
    sumValues (negPart l) - sumValues (posPart l) = -sumValues l := by
  induction l with
  | nil => simp [negPart_nil, posPart_nil, sumValues_nil]
  | cons x xs ih =>
    have hx := hc x (List.mem_cons_self x xs)
    have hxs := fun y hy => hc y (List.mem_cons_of_mem x hy)
    have heps : (0 : ℚ) < eps := by norm_num [eps]
    rw [negPart_cons, posPart_cons, sumValues_append, sumValues_append, sumValues_cons]
    by_cases hneg : x.2 < -eps
    · have hpos : ¬ eps < x.2 := by push_neg; linarith
      rw [if_pos hneg, if_neg hpos]
      simp only [sumValues_cons, sumValues_nil]
      linarith [ih hxs]
    · by_cases hpos : eps < x.2
      · rw [if_neg hneg, if_pos hpos]
        simp only [sumValues_cons, sumValues_nil]
        linarith [ih hxs]
      · have hz : x.2 = 0 := by
          have h1 : x.2 ≤ 0 := hx.nonpos_of_le_eps (not_lt.mp hpos)
          have h2 : -x.2 ≤ 0 := hx.neg.nonpos_of_le_eps (by linarith [not_lt.mp hneg])
          linarith
        rw [if_neg hneg, if_neg hpos]
        simp only [sumValues_nil]
        linarith [ih hxs]


/-- The entries emitted by the greedy loop, without the accumulator:
`greedyLoop ds cs acc = acc ++ greedyOut ds cs` whenever the keys in play
are fresh for `acc` (`greedyLoop_acc`). -/
def greedyOut (debtors creditors : List (String × ℚ)) : Ledger :=
  match debtors, creditors with
  | [], _ => []
  | _ :: _, [] => []
  | (d, dAmt) :: ds, (c, cAmt) :: cs =>
    let pay := round2 (min dAmt cAmt)
    let entry := if 0 < pay then [((d, c), pay)] else []
    let dRem := round2 (dAmt - pay)
    let cRem := round2 (cAmt - pay)
    if hd : dRem ≤ eps then
      if cRem ≤ eps then entry ++ greedyOut ds cs
      else entry ++ greedyOut ds ((c, cRem) :: cs)
    else
      if hc : cRem ≤ eps then entry ++ greedyOut ((d, dRem) :: ds) cs
      else absurd (greedy_advances dAmt cAmt) (not_or.mpr ⟨hd, hc⟩)
termination_by debtors.length + creditors.length
decreasing_by
  · simp; omega
  · simp
  · simp

/-- Freshness of an accumulator for the two worklists. -/
def FreshAcc (acc : Ledger) (ds cs : List (String × ℚ)) : Prop :=
  ∀ kv ∈ acc, kv.1.1 ∉ dkeys ds ∨ kv.1.2 ∉ dkeys cs

theorem freshAcc_shrink {acc : Ledger} {ds cs ds2 cs2 : List (String × ℚ)}
    (h : FreshAcc acc ds cs) (hd : ∀ u, u ∈ dkeys ds2 → u ∈ dkeys ds)
    (hc : ∀ u, u ∈ dkeys cs2 → u ∈ dkeys cs) : FreshAcc acc ds2 cs2 := by
  intro kv hkv
  rcases h kv hkv with h1 | h1
  · exact Or.inl (fun hmem => h1 (hd _ hmem))
  · exact Or.inr (fun hmem => h1 (hc _ hmem))

theorem greedyLoop_acc (debtors creditors : List (String × ℚ)) (simplified : Ledger) :
    (dkeys debtors).Nodup → (dkeys creditors).Nodup →
    FreshAcc simplified debtors creditors →
    greedyLoop debtors creditors simplified = simplified ++ greedyOut debtors creditors := by
  induction debtors, creditors, simplified using greedyLoop.induct with
  | case1 simplified creditors =>
    intro _ _ _
    simp only [greedyLoop, greedyOut, List.append_nil]
  | case2 simplified d ds =>
    intro _ _ _
    simp only [greedyLoop, greedyOut, List.append_nil]
  | case3 simplified d dAmt ds c cAmt cs pay simplified1 dRem cRem hd hc ih =>
    intro hnd hnc hfresh
    have hkey : ((d, c) : String × String) ∉ dkeys simplified := by
      intro hmem
      obtain ⟨v, hv⟩ := dget_isSome_of_mem hmem
      rcases hfresh ((d, c), v) (dget_mem hv) with h1 | h1
      · exact h1 (by rw [dkeys_cons]; exact List.mem_cons_self _ _)
      · exact h1 (by rw [dkeys_cons]; exact List.mem_cons_self _ _)
    have hs1 : simplified1 = simplified ++ (if 0 < pay then [((d, c), pay)] else []) := by
      show (if 0 < pay then dinsert simplified (d, c) (round2 (dgetD simplified (d, c) 0 + pay))
        else simplified) = _
      by_cases hp : 0 < pay
      · rw [if_pos hp, if_pos hp, dgetD, dget_eq_none hkey, Option.getD_none, zero_add,
          round2_round2, dinsert_eq_append hkey]
      · rw [if_neg hp, if_neg hp, List.append_nil]
    rw [dkeys_cons, List.nodup_cons] at hnd hnc
    have hfr1 : FreshAcc simplified1 ds cs := by
      rw [hs1]
      intro kv hkv
      rcases List.mem_append.mp hkv with h1 | h1
      · exact freshAcc_shrink hfresh
          (fun u hu => by rw [dkeys_cons]; exact List.mem_cons_of_mem _ hu)
          (fun u hu => by rw [dkeys_cons]; exact List.mem_cons_of_mem _ hu) kv h1
      · by_cases hp : 0 < pay
        · rw [if_pos hp, List.mem_singleton] at h1
          rw [h1]
          exact Or.inl hnd.1
        · rw [if_neg hp] at h1
          simp at h1
    rw [greedyLoop]
    simp only [dif_pos hd, if_pos hc]
    show greedyLoop ds cs simplified1 =
      simplified ++ greedyOut ((d, dAmt) :: ds) ((c, cAmt) :: cs)
    rw [ih hnd.2 hnc.2 hfr1, hs1]
    simp only [greedyOut, dif_pos hd, if_pos hc, List.append_assoc]
  | case4 simplified d dAmt ds c cAmt cs pay simplified1 dRem cRem hd hc ih =>
    intro hnd hnc hfresh
    have hkey : ((d, c) : String × String) ∉ dkeys simplified := by
      intro hmem
      obtain ⟨v, hv⟩ := dget_isSome_of_mem hmem
      rcases hfresh ((d, c), v) (dget_mem hv) with h1 | h1
      · exact h1 (by rw [dkeys_cons]; exact List.mem_cons_self _ _)
      · exact h1 (by rw [dkeys_cons]; exact List.mem_cons_self _ _)
    have hs1 : simplified1 = simplified ++ (if 0 < pay then [((d, c), pay)] else []) := by
      show (if 0 < pay then dinsert simplified (d, c) (round2 (dgetD simplified (d, c) 0 + pay))
        else simplified) = _
      by_cases hp : 0 < pay
      · rw [if_pos hp, if_pos hp, dgetD, dget_eq_none hkey, Option.getD_none, zero_add,
          round2_round2, dinsert_eq_append hkey]
      · rw [if_neg hp, if_neg hp, List.append_nil]
    rw [dkeys_cons, List.nodup_cons] at hnd
    have hfr1 : FreshAcc simplified1 ds ((c, cRem) :: cs) := by
      rw [hs1]
      intro kv hkv
      rcases List.mem_append.mp hkv with h1 | h1
      · exact freshAcc_shrink hfresh
          (fun u hu => by rw [dkeys_cons]; exact List.mem_cons_of_mem _ hu)
          (fun u hu => hu) kv h1
      · by_cases hp : 0 < pay
        · rw [if_pos hp, List.mem_singleton] at h1
          rw [h1]
          exact Or.inl hnd.1
        · rw [if_neg hp] at h1
          simp at h1
    rw [greedyLoop]
    simp only [dif_pos hd, if_neg hc]
    show greedyLoop ds ((c, cRem) :: cs) simplified1 =
      simplified ++ greedyOut ((d, dAmt) :: ds) ((c, cAmt) :: cs)
    rw [ih hnd.2 hnc hfr1, hs1]
    simp only [greedyOut, dif_pos hd, if_neg hc, List.append_assoc]
  | case5 simplified d dAmt ds c cAmt cs pay simplified1 dRem cRem hd hc ih =>
    intro hnd hnc hfresh
    have hkey : ((d, c) : String × String) ∉ dkeys simplified := by
      intro hmem
      obtain ⟨v, hv⟩ := dget_isSome_of_mem hmem
      rcases hfresh ((d, c), v) (dget_mem hv) with h1 | h1
      · exact h1 (by rw [dkeys_cons]; exact List.mem_cons_self _ _)
      · exact h1 (by rw [dkeys_cons]; exact List.mem_cons_self _ _)
    have hs1 : simplified1 = simplified ++ (if 0 < pay then [((d, c), pay)] else []) := by
      show (if 0 < pay then dinsert simplified (d, c) (round2 (dgetD simplified (d, c) 0 + pay))
        else simplified) = _
      by_cases hp : 0 < pay
      · rw [if_pos hp, if_pos hp, dgetD, dget_eq_none hkey, Option.getD_none, zero_add,
          round2_round2, dinsert_eq_append hkey]
      · rw [if_neg hp, if_neg hp, List.append_nil]
    rw [dkeys_cons, List.nodup_cons] at hnc
    have hfr1 : FreshAcc simplified1 ((d, dRem) :: ds) cs := by
      rw [hs1]
      intro kv hkv
      rcases List.mem_append.mp hkv with h1 | h1
      · exact freshAcc_shrink hfresh
          (fun u hu => hu)
          (fun u hu => by rw [dkeys_cons]; exact List.mem_cons_of_mem _ hu) kv h1
      · by_cases hp : 0 < pay
        · rw [if_pos hp, List.mem_singleton] at h1
          rw [h1]
          exact Or.inr hnc.1
        · rw [if_neg hp] at h1
          simp at h1
    rw [greedyLoop]
    simp only [dif_neg hd, dif_pos hc]
    show greedyLoop ((d, dRem) :: ds) cs simplified1 =
      simplified ++ greedyOut ((d, dAmt) :: ds) ((c, cAmt) :: cs)
    rw [ih hnd hnc.2 hfr1, hs1]
    simp only [greedyOut, dif_neg hd, dif_pos hc, List.append_assoc]
  | case6 simplified d dAmt ds c cAmt cs pay dRem cRem hd hc =>
    exact absurd (greedy_advances dAmt cAmt) (not_or.mpr ⟨hd, hc⟩)


theorem step_pay_eq {da ca : ℚ} (hdc : IsCent da) (hcc : IsCent ca) :
    round2 (min da ca) = min da ca := round2_of_isCent (hdc.min hcc)

theorem step_pay_pos {da ca : ℚ} (hdc : IsCent da ∧ eps < da) (hcc : IsCent ca ∧ eps < ca) :
    eps < round2 (min da ca) := by
  rw [step_pay_eq hdc.1 hcc.1]
  exact lt_min hdc.2 hcc.2

theorem step_dRem_eq {da ca : ℚ} (hdc : IsCent da) (hcc : IsCent ca) :
    round2 (da - round2 (min da ca)) = da - min da ca := by
  rw [step_pay_eq hdc hcc]
  exact round2_of_isCent (hdc.sub (hdc.min hcc))

theorem step_cRem_eq {da ca : ℚ} (hdc : IsCent da) (hcc : IsCent ca) :
    round2 (ca - round2 (min da ca)) = ca - min da ca := by
  rw [step_pay_eq hdc hcc]
  exact round2_of_isCent (hcc.sub (hdc.min hcc))

/-- If the debtor's remainder drops to the threshold, the payment was the
debtor's full amount. -/
theorem step_min_eq_left {da ca : ℚ} (hdc : IsCent da) (hcc : IsCent ca)
    (hd : round2 (da - round2 (min da ca)) ≤ eps) : min da ca = da := by
  rw [step_dRem_eq hdc hcc] at hd
  have h0 : da - min da ca ≤ 0 := (hdc.sub (hdc.min hcc)).nonpos_of_le_eps hd
  exact le_antisymm (min_le_left da ca) (by linarith)

/-- If the creditor's remainder drops to the threshold, the payment was the
creditor's full amount. -/
theorem step_min_eq_right {da ca : ℚ} (hdc : IsCent da) (hcc : IsCent ca)
    (hc : round2 (ca - round2 (min da ca)) ≤ eps) : min da ca = ca := by
  rw [step_cRem_eq hdc hcc] at hc
  have h0 : ca - min da ca ≤ 0 := (hcc.sub (hdc.min hcc)).nonpos_of_le_eps hc
  exact le_antisymm (min_le_right da ca) (by linarith)

/-- Entries emitted by the greedy matching carry a cent value above the
threshold. -/
theorem greedyOut_good (debtors creditors : List (String × ℚ)) :
    Good debtors → Good creditors →
    ∀ kv ∈ greedyOut debtors creditors, IsCent kv.2 ∧ eps < kv.2 := by
  induction debtors, creditors using greedyOut.induct with
  | case1 creditors =>
    intro _ _ kv hkv
    simp [greedyOut] at hkv
  | case2 d ds =>
    intro _ _ kv hkv
    simp [greedyOut] at hkv
  | case3 d dAmt ds c cAmt cs pay dRem cRem hd hc ih =>
    intro hgd hgc kv hkv
    have hda := hgd.head
    have hca := hgc.head
    rw [greedyOut] at hkv
    simp only [dif_pos hd, if_pos hc] at hkv
    rcases List.mem_append.mp hkv with h1 | h1
    · by_cases hp : 0 < pay
      · rw [if_pos hp, List.mem_singleton] at h1
        rw [h1]
        exact ⟨isCent_round2 _, step_pay_pos hda hca⟩
      · rw [if_neg hp] at h1
        simp at h1
    · exact ih hgd.tail hgc.tail kv h1
  | case4 d dAmt ds c cAmt cs pay dRem cRem hd hc ih =>
    intro hgd hgc kv hkv
    have hda := hgd.head
    have hca := hgc.head
    rw [greedyOut] at hkv
    simp only [dif_pos hd, if_neg hc] at hkv
    rcases List.mem_append.mp hkv with h1 | h1
    · by_cases hp : 0 < pay
      · rw [if_pos hp, List.mem_singleton] at h1
        rw [h1]
        exact ⟨isCent_round2 _, step_pay_pos hda hca⟩
      · rw [if_neg hp] at h1
        simp at h1
    · exact ih hgd.tail (good_cons ⟨isCent_round2 _, not_le.mp hc⟩ hgc.tail) kv h1
  | case5 d dAmt ds c cAmt cs pay dRem cRem hd hc ih =>
    intro hgd hgc kv hkv
    have hda := hgd.head
    have hca := hgc.head
    rw [greedyOut] at hkv
    simp only [dif_neg hd, dif_pos hc] at hkv
    rcases List.mem_append.mp hkv with h1 | h1
    · by_cases hp : 0 < pay
      · rw [if_pos hp, List.mem_singleton] at h1
        rw [h1]
        exact ⟨isCent_round2 _, step_pay_pos hda hca⟩
      · rw [if_neg hp] at h1
        simp at h1
    · exact ih (good_cons ⟨isCent_round2 _, not_le.mp hd⟩ hgd.tail) hgc.tail kv h1
  | case6 d dAmt ds c cAmt cs pay dRem cRem hd hc =>
    exact absurd (greedy_advances dAmt cAmt) (not_or.mpr ⟨hd, hc⟩)

/-- Every emitted entry pairs a debtor key with a creditor key. -/
theorem greedyOut_keys (debtors creditors : List (String × ℚ)) :
    ∀ kv ∈ greedyOut debtors creditors,
      kv.1.1 ∈ dkeys debtors ∧ kv.1.2 ∈ dkeys creditors := by
  induction debtors, creditors using greedyOut.induct with
  | case1 creditors =>
    intro kv hkv
    simp [greedyOut] at hkv
  | case2 d ds =>
    intro kv hkv
    simp [greedyOut] at hkv
  | case3 d dAmt ds c cAmt cs pay dRem cRem hd hc ih =>
    intro kv hkv
    rw [greedyOut] at hkv
    simp only [dif_pos hd, if_pos hc] at hkv
    rw [dkeys_cons, dkeys_cons]
    rcases List.mem_append.mp hkv with h1 | h1
    · by_cases hp : 0 < pay
      · rw [if_pos hp, List.mem_singleton] at h1
        rw [h1]
        exact ⟨List.mem_cons_self _ _, List.mem_cons_self _ _⟩
      · rw [if_neg hp] at h1
        simp at h1
    · obtain ⟨hk1, hk2⟩ := ih kv h1
      exact ⟨List.mem_cons_of_mem _ hk1, List.mem_cons_of_mem _ hk2⟩
  | case4 d dAmt ds c cAmt cs pay dRem cRem hd hc ih =>
    intro kv hkv
    rw [greedyOut] at hkv
    simp only [dif_pos hd, if_neg hc] at hkv
    rw [dkeys_cons, dkeys_cons]
    rcases List.mem_append.mp hkv with h1 | h1
    · by_cases hp : 0 < pay
      · rw [if_pos hp, List.mem_singleton] at h1
        rw [h1]
        exact ⟨List.mem_cons_self _ _, List.mem_cons_self _ _⟩
      · rw [if_neg hp] at h1
        simp at h1
    · obtain ⟨hk1, hk2⟩ := ih kv h1
      rw [dkeys_cons] at hk2
      exact ⟨List.mem_cons_of_mem _ hk1, hk2⟩
  | case5 d dAmt ds c cAmt cs pay dRem cRem hd hc ih =>
    intro kv hkv
    rw [greedyOut] at hkv
    simp only [dif_neg hd, dif_pos hc] at hkv
    rw [dkeys_cons, dkeys_cons]
    rcases List.mem_append.mp hkv with h1 | h1
    · by_cases hp : 0 < pay
      · rw [if_pos hp, List.mem_singleton] at h1
        rw [h1]
        exact ⟨List.mem_cons_self _ _, List.mem_cons_self _ _⟩
      · rw [if_neg hp] at h1
        simp at h1
    · obtain ⟨hk1, hk2⟩ := ih kv h1
      rw [dkeys_cons] at hk1
      exact ⟨hk1, List.mem_cons_of_mem _ hk2⟩
  | case6 d dAmt ds c cAmt cs pay dRem cRem hd hc =>
    exact absurd (greedy_advances dAmt cAmt) (not_or.mpr ⟨hd, hc⟩)


/-- The greedy matching pays out exactly the creditor total (when debts and
credits balance). -/
theorem greedyOut_sum (debtors creditors : List (String × ℚ)) :
    Good debtors → Good creditors → sumValues debtors = sumValues creditors →
    sumValues (greedyOut debtors creditors) = sumValues creditors := by
  induction debtors, creditors using greedyOut.induct with
  | case1 creditors =>
    intro _ _ hsum
    rw [greedyOut]
    rw [sumValues_nil] at hsum ⊢
    exact hsum
  | case2 d ds =>
    intro _ _ _
    rw [greedyOut, sumValues_nil, sumValues_nil]
  | case3 d dAmt ds c cAmt cs pay dRem cRem hd hc ih =>
    intro hgd hgc hsum
    have hda := hgd.head
    have hca := hgc.head
    rw [sumValues_cons, sumValues_cons] at hsum
    have hsum2 : dAmt + sumValues ds = cAmt + sumValues cs := hsum
    have hmind : min dAmt cAmt = dAmt := step_min_eq_left hda.1 hca.1 hd
    have hminc : min dAmt cAmt = cAmt := step_min_eq_right hda.1 hca.1 hc
    have hpay : pay = cAmt := by
      show round2 (min dAmt cAmt) = cAmt
      rw [step_pay_eq hda.1 hca.1, hminc]
    have hp : 0 < pay := by
      rw [hpay]
      have : (0 : ℚ) < eps := by norm_num [eps]
      linarith [hca.2]
    have hrec := ih hgd.tail hgc.tail (by rw [hmind] at hminc; linarith)
    rw [greedyOut]
    simp only [dif_pos hd, if_pos hc, if_pos hp]
    rw [sumValues_append, sumValues_cons, sumValues_nil, hrec, sumValues_cons]
    show pay + 0 + sumValues cs = cAmt + sumValues cs
    rw [hpay]
    ring
  | case4 d dAmt ds c cAmt cs pay dRem cRem hd hc ih =>
    intro hgd hgc hsum
    have hda := hgd.head
    have hca := hgc.head
    rw [sumValues_cons, sumValues_cons] at hsum
    have hsum2 : dAmt + sumValues ds = cAmt + sumValues cs := hsum
    have hmind : min dAmt cAmt = dAmt := step_min_eq_left hda.1 hca.1 hd
    have hpay : pay = dAmt := by
      show round2 (min dAmt cAmt) = dAmt
      rw [step_pay_eq hda.1 hca.1, hmind]
    have hp : 0 < pay := by
      rw [hpay]
      have : (0 : ℚ) < eps := by norm_num [eps]
      linarith [hda.2]
    have hcRem : cRem = cAmt - dAmt := by
      show round2 (cAmt - pay) = cAmt - dAmt
      rw [hpay]
      exact round2_of_isCent (hca.1.sub hda.1)
    have hrec := ih hgd.tail (good_cons ⟨isCent_round2 _, not_le.mp hc⟩ hgc.tail)
      (by rw [sumValues_cons]; show sumValues ds = cRem + sumValues cs; rw [hcRem]; linarith)
    rw [greedyOut]
    simp only [dif_pos hd, if_neg hc, if_pos hp]
    rw [sumValues_append, sumValues_cons, sumValues_nil, hrec, sumValues_cons,
      sumValues_cons]
    show pay + 0 + (cRem + sumValues cs) = cAmt + sumValues cs
    rw [hpay, hcRem]
    ring
  | case5 d dAmt ds c cAmt cs pay dRem cRem hd hc ih =>
    intro hgd hgc hsum
    have hda := hgd.head
    have hca := hgc.head
    rw [sumValues_cons, sumValues_cons] at hsum
    have hsum2 : dAmt + sumValues ds = cAmt + sumValues cs := hsum
    have hminc : min dAmt cAmt = cAmt := step_min_eq_right hda.1 hca.1 hc
    have hpay : pay = cAmt := by
      show round2 (min dAmt cAmt) = cAmt
      rw [step_pay_eq hda.1 hca.1, hminc]
    have hp : 0 < pay := by
      rw [hpay]
      have : (0 : ℚ) < eps := by norm_num [eps]
      linarith [hca.2]
    have hdRem : dRem = dAmt - cAmt := by
      show round2 (dAmt - pay) = dAmt - cAmt
      rw [hpay]
      exact round2_of_isCent (hda.1.sub hca.1)
    have hrec := ih (good_cons ⟨isCent_round2 _, not_le.mp hd⟩ hgd.tail) hgc.tail
      (by rw [sumValues_cons]; show dRem + sumValues ds = sumValues cs; rw [hdRem]; linarith)
    rw [greedyOut]
    simp only [dif_neg hd, dif_pos hc, if_pos hp]
    rw [sumValues_append, sumValues_cons, sumValues_nil, hrec, sumValues_cons]
    show pay + 0 + sumValues cs = cAmt + sumValues cs
    rw [hpay]
    ring
  | case6 d dAmt ds c cAmt cs pay dRem cRem hd hc =>
    exact absurd (greedy_advances dAmt cAmt) (not_or.mpr ⟨hd, hc⟩)


/-- Effect of the debtor-side store of one net step on the debtor partition:
a fresh debtor is appended. -/
theorem negPart_dstep_fresh {n : List (String × ℚ)} {d : String} {pay : ℚ}
    (hfresh : d ∉ dkeys n) (hcent : IsCent pay) (hpos : eps < pay) :
    negPart (dinsert n d (round2 (dgetD n d 0 - pay))) = negPart n ++ [(d, pay)] ∧
    dget (dinsert n d (round2 (dgetD n d 0 - pay))) d = some (-pay) := by
  have hval : round2 (dgetD n d 0 - pay) = -pay := by
    rw [dgetD, dget_eq_none hfresh, Option.getD_none, zero_sub]
    exact round2_of_isCent hcent.neg
  have heps : (0 : ℚ) < eps := by norm_num [eps]
  constructor
  · rw [hval, negPart_dinsert_fresh hfresh, if_pos (by linarith : -pay < -eps), neg_neg]
  · rw [hval]
    exact dget_dinsert_self n d (-pay)

/-- Effect of the debtor-side store of one net step on the debtor partition:
a debtor already carrying a negative balance is bumped in place. -/
theorem negPart_dstep_partial {n : List (String × ℚ)} (hwf : (dkeys n).Nodup)
    {d : String} {p pay : ℚ} (hget : dget n d = some (-p)) (hp : eps < p) (hpc : IsCent p)
    (hcent : IsCent pay) (hpos : eps < pay) {f0 : List (String × ℚ)}
    (hshape : negPart n = f0 ++ [(d, p)]) :
    negPart (dinsert n d (round2 (dgetD n d 0 - pay))) = f0 ++ [(d, p + pay)] ∧
    dget (dinsert n d (round2 (dgetD n d 0 - pay))) d = some (-(p + pay)) := by
  have hval : round2 (dgetD n d 0 - pay) = -(p + pay) := by
    rw [dgetD, hget, Option.getD_some, show -p - pay = -(p + pay) by ring]
    exact round2_of_isCent (hpc.add hcent).neg
  have heps : (0 : ℚ) < eps := by norm_num [eps]
  have hdk : d ∉ dkeys f0 := by
    have hnd : (dkeys (negPart n)).Nodup := (dkeys_negPart_sublist n).nodup hwf
    rw [hshape] at hnd
    intro hmem
    have : (dkeys f0 ++ [d]).Nodup := by
      have he : dkeys (f0 ++ [(d, p)]) = dkeys f0 ++ [d] := by
        rw [dkeys, List.map_append]
        rfl
      rw [← he]
      exact hnd
    rw [List.nodup_append] at this
    exact this.2.2 hmem (List.mem_singleton_self d)
  constructor
  · rw [hval, negPart_dinsert_update hwf hget (by linarith : -p < -eps)
      (by linarith : -(p + pay) < -eps), hshape, List.map_append, map_replace_id hdk,
      List.map_cons, List.map_nil, if_pos rfl, neg_neg]
  · rw [hval]
    exact dget_dinsert_self n d (-(p + pay))

/-- The creditor-side store of one net step never touches the debtor
partition (creditor balances stay positive). -/
theorem negPart_cstep {n : List (String × ℚ)} {c : String} {pay : ℚ}
    (hcent : IsCent pay) (hpos : eps < pay)
    (hc : dget n c = none ∨ ∃ v, dget n c = some v ∧ 0 < v ∧ IsCent v) :
    negPart (dinsert n c (round2 (dgetD n c 0 + pay))) = negPart n := by
  have heps : (0 : ℚ) < eps := by norm_num [eps]
  rcases hc with hc | ⟨v, hv, hvpos, hvc⟩
  · have hfresh : c ∉ dkeys n := by
      intro hmem
      obtain ⟨w, hw⟩ := dget_isSome_of_mem hmem
      rw [hw] at hc
      exact Option.noConfusion hc
    rw [dgetD, hc, Option.getD_none, zero_add, round2_of_isCent hcent,
      negPart_dinsert_fresh hfresh, if_neg (by push_neg; linarith : ¬ pay < -eps),
      List.append_nil]
  · rw [dgetD, hv, Option.getD_some, round2_of_isCent (hvc.add hcent)]
    exact negPart_dinsert_stable hv (by push_neg; linarith) (by push_neg; linarith)

/-- Mirror of `negPart_dstep_fresh`/`negPart_dstep_partial` for creditors. -/
theorem posPart_cstep_fresh {n : List (String × ℚ)} {c : String} {pay : ℚ}
    (hfresh : c ∉ dkeys n) (hcent : IsCent pay) (hpos : eps < pay) :
    posPart (dinsert n c (round2 (dgetD n c 0 + pay))) = posPart n ++ [(c, pay)] ∧
    dget (dinsert n c (round2 (dgetD n c 0 + pay))) c = some pay := by
  have hval : round2 (dgetD n c 0 + pay) = pay := by
    rw [dgetD, dget_eq_none hfresh, Option.getD_none, zero_add]
    exact round2_of_isCent hcent
  constructor
  · rw [hval, posPart_dinsert_fresh hfresh, if_pos hpos]
  · rw [hval]
    exact dget_dinsert_self n c pay

theorem posPart_cstep_partial {n : List (String × ℚ)} (hwf : (dkeys n).Nodup)
    {c : String} {p pay : ℚ} (hget : dget n c = some p) (hp : eps < p) (hpc : IsCent p)
    (hcent : IsCent pay) (hpos : eps < pay) {f0 : List (String × ℚ)}
    (hshape : posPart n = f0 ++ [(c, p)]) :
    posPart (dinsert n c (round2 (dgetD n c 0 + pay))) = f0 ++ [(c, p + pay)] ∧
    dget (dinsert n c (round2 (dgetD n c 0 + pay))) c = some (p + pay) := by
  have hval : round2 (dgetD n c 0 + pay) = p + pay := by
    rw [dgetD, hget, Option.getD_some]
    exact round2_of_isCent (hpc.add hcent)
  have heps : (0 : ℚ) < eps := by norm_num [eps]
  have hck : c ∉ dkeys f0 := by
    have hnd : (dkeys (posPart n)).Nodup := (dkeys_posPart_sublist n).nodup hwf
    rw [hshape] at hnd
    intro hmem
    have he : dkeys (f0 ++ [(c, p)]) = dkeys f0 ++ [c] := by
      rw [dkeys, List.map_append]
      rfl
    rw [he, List.nodup_append] at hnd
    exact hnd.2.2 hmem (List.mem_singleton_self c)
  constructor
  · rw [hval, posPart_dinsert_update hwf hget hp (by linarith : eps < p + pay), hshape,
      List.map_append, map_replace_id hck, List.map_cons, List.map_nil, if_pos rfl]
  · rw [hval]
    exact dget_dinsert_self n c (p + pay)

/-- The debtor-side store of one net step never touches the creditor
partition (debtor balances stay negative). -/
theorem posPart_dstep {n : List (String × ℚ)} {d : String} {pay : ℚ}
    (hcent : IsCent pay) (hpos : eps < pay)
    (hd : dget n d = none ∨ ∃ v, dget n d = some v ∧ v < 0 ∧ IsCent v) :
    posPart (dinsert n d (round2 (dgetD n d 0 - pay))) = posPart n := by
  have heps : (0 : ℚ) < eps := by norm_num [eps]
  rcases hd with hd | ⟨v, hv, hvneg, hvc⟩
  · have hfresh : d ∉ dkeys n := by
      intro hmem
      obtain ⟨w, hw⟩ := dget_isSome_of_mem hmem
      rw [hw] at hd
      exact Option.noConfusion hd
    rw [dgetD, hd, Option.getD_none, zero_sub, round2_of_isCent hcent.neg,
      posPart_dinsert_fresh hfresh, if_neg (by push_neg; linarith : ¬ eps < -pay),
      List.append_nil]
  · rw [dgetD, hv, Option.getD_some, round2_of_isCent (hvc.sub hcent)]
    exact posPart_dinsert_stable hv (by push_neg; linarith) (by push_neg; linarith)


/-- Debtor keys are fresh for a net dict. -/
def DFresh (l n : List (String × ℚ)) : Prop := ∀ u ∈ dkeys l, u ∉ dkeys n

/-- Stored balances of the listed keys are positive. -/
def CPos (l n : List (String × ℚ)) : Prop :=
  ∀ u ∈ dkeys l, ∀ v, dget n u = some v → 0 < v

/-- Stored balances of the listed keys are negative. -/
def DNeg (l n : List (String × ℚ)) : Prop :=
  ∀ u ∈ dkeys l, ∀ v, dget n u = some v → v < 0

/-- Running the net fold over the greedy output recovers the debtor worklist:
the debtors appear in the negative partition of the resulting net dict, in
order, with their full magnitudes. -/
theorem greedy_negPart (debtors creditors : List (String × ℚ)) :
    ∀ (n f0 r : List (String × ℚ)),
    Good debtors → Good creditors →
    (dkeys debtors).Nodup → (dkeys creditors).Nodup →
    (∀ u ∈ dkeys debtors, u ∉ dkeys creditors) →
    sumValues debtors = sumValues creditors →
    (dkeys n).Nodup → (∀ x ∈ n, IsCent x.2) →
    CPos creditors n →
    ((DFresh debtors n ∧ negPart n = f0 ∧ r = debtors) ∨
      (∃ d da ds p, debtors = (d, da) :: ds ∧ DFresh ds n ∧ dget n d = some (-p) ∧
        eps < p ∧ IsCent p ∧ negPart n = f0 ++ [(d, p)] ∧ r = (d, p + da) :: ds)) →
    negPart (netFold n (greedyOut debtors creditors)) = f0 ++ r := by
  induction debtors, creditors using greedyOut.induct with
  | case1 creditors =>
    intro n f0 r _ _ _ _ _ _ _ _ _ hshape
    rw [greedyOut, netFold_nil]
    rcases hshape with ⟨_, hf0, hr⟩ | ⟨d2, da2, ds2, p, hdeq, _⟩
    · rw [hf0, hr, List.append_nil]
    · exact absurd hdeq (by simp)
  | case2 d ds =>
    intro n f0 r hgd _ _ _ _ hsum _ _ _ _
    rw [sumValues_nil] at hsum
    exact absurd hsum (by linarith [good_sum_pos hgd])
  | case3 d dAmt ds c cAmt cs pay dRem cRem hd hc ih =>
    intro n f0 r hgd hgc hnd hnc hdisj hsum hnwf hncent hcpos hshape
    have hda := hgd.head
    have hca := hgc.head
    rw [sumValues_cons, sumValues_cons] at hsum
    have hsum2 : dAmt + sumValues ds = cAmt + sumValues cs := hsum
    have hmind : min dAmt cAmt = dAmt := step_min_eq_left hda.1 hca.1 hd
    have hminc : min dAmt cAmt = cAmt := step_min_eq_right hda.1 hca.1 hc
    have hpayd : pay = dAmt := by
      show round2 (min dAmt cAmt) = dAmt
      rw [step_pay_eq hda.1 hca.1, hmind]
    have hpayc : pay = cAmt := by
      show round2 (min dAmt cAmt) = cAmt
      rw [step_pay_eq hda.1 hca.1, hminc]
    have hpcent : IsCent pay := isCent_round2 _
    have hppos : eps < pay := step_pay_pos hda hca
    have heps0 : (0 : ℚ) < eps := by norm_num [eps]
    have hp0 : 0 < pay := by linarith
    have hdmem : d ∈ dkeys ((d, dAmt) :: ds) := by
      rw [dkeys_cons]; exact List.mem_cons_self _ _
    have hcmem : c ∈ dkeys ((c, cAmt) :: cs) := by
      rw [dkeys_cons]; exact List.mem_cons_self _ _
    have hdc : c ≠ d := by
      intro he
      apply hdisj d hdmem
      rw [dkeys_cons]
      exact List.mem_cons.mpr (Or.inl he.symm)
    rw [dkeys_cons, List.nodup_cons] at hnd hnc
    rw [greedyOut]
    simp only [dif_pos hd, if_pos hc, if_pos hp0, List.singleton_append, netFold_cons,
      netStep]
    have hdisj2 : ∀ u ∈ dkeys ds, u ∉ dkeys cs := by
      intro u hu hu2
      exact hdisj u (by rw [dkeys_cons]; exact List.mem_cons_of_mem _ hu)
        (by rw [dkeys_cons]; exact List.mem_cons_of_mem _ hu2)
    have hnd2 : ∀ u ∈ dkeys ds, u ≠ d := by
      intro u hu he
      exact hnd.1 (he ▸ hu)
    have hdcs : ∀ u ∈ dkeys ds, u ≠ c := by
      intro u hu he
      exact hdisj u (by rw [dkeys_cons]; exact List.mem_cons_of_mem _ hu) (he ▸ hcmem)
    rcases hshape with ⟨hfresh, hf0, hr⟩ | ⟨d2, da2, ds2, p, hdeq, hfresh, hget, hppos2, hpc, hf0, hr⟩
    · -- the current debtor is fresh in the net dict
      have hdfresh : d ∉ dkeys n := hfresh d hdmem
      obtain ⟨hneg1, hget1⟩ := negPart_dstep_fresh hdfresh hpcent hppos
      have hcne : dget (dinsert n d (round2 (dgetD n d 0 - pay))) c = dget n c :=
        dget_dinsert_ne n hdc _
      have hcstep : dget (dinsert n d (round2 (dgetD n d 0 - pay))) c = none ∨
          ∃ v, dget (dinsert n d (round2 (dgetD n d 0 - pay))) c = some v ∧ 0 < v ∧ IsCent v := by
        rw [hcne]
        rcases hgc0 : dget n c with _ | v
        · exact Or.inl rfl
        · exact Or.inr ⟨v, rfl, hcpos c hcmem v hgc0, hncent (c, v) (dget_mem hgc0)⟩
      have hneg2 := negPart_cstep hpcent hppos hcstep
      have hkeys2 : ∀ u, u ∈ dkeys (dinsert (dinsert n d (round2 (dgetD n d 0 - pay))) c
          (round2 (dgetD (dinsert n d (round2 (dgetD n d 0 - pay))) c 0 + pay))) →
          u ∈ dkeys n ∨ u = d ∨ u = c := by
        intro u hu
        rcases mem_dkeys_dinsert _ _ _ hu with h1 | h1
        · rcases mem_dkeys_dinsert _ _ _ h1 with h2 | h2
          · exact Or.inl h2
          · exact Or.inr (Or.inl h2)
        · exact Or.inr (Or.inr h1)
      have happ := ih
        (dinsert (dinsert n d (round2 (dgetD n d 0 - pay))) c
          (round2 (dgetD (dinsert n d (round2 (dgetD n d 0 - pay))) c 0 + pay)))
        (f0 ++ [(d, dAmt)]) ds hgd.tail hgc.tail hnd.2 hnc.2 hdisj2
        (by linarith [show pay = dAmt from hpayd, show pay = cAmt from hpayc])
        (dkeys_nodup_dinsert (dkeys_nodup_dinsert hnwf _ _) _ _)
        (values_dinsert_cent (values_dinsert_cent hncent (isCent_round2 _)) (isCent_round2 _))
        (by
          intro u hu v hv
          have huc : u ≠ c := fun he => hnc.1 (he ▸ hu)
          have hud : u ≠ d := by
            intro he
            exact hdisj u (he ▸ hdmem) (by rw [dkeys_cons]; exact List.mem_cons_of_mem _ hu)
          rw [dget_dinsert_ne _ huc, dget_dinsert_ne _ hud] at hv
          exact hcpos u (by rw [dkeys_cons]; exact List.mem_cons_of_mem _ hu) v hv)
        (Or.inl ⟨by
          intro u hu hmem
          rcases hkeys2 u hmem with h1 | h1 | h1
          · exact hfresh u (by rw [dkeys_cons]; exact List.mem_cons_of_mem _ hu) h1
          · exact hnd2 u hu h1
          · exact hdcs u hu h1,
          by rw [hneg2, hneg1, hf0, hpayd],
          rfl⟩)
      rw [happ, hr]
      simp
    · -- the current debtor already carries part of its balance
      obtain ⟨he1, he2⟩ := List.cons.injEq .. ▸ hdeq
      obtain ⟨hed, heda⟩ := Prod.mk.injEq .. ▸ he1
      rw [← hed] at hget hf0
      rw [← he2] at hfresh
      obtain ⟨hneg1, hget1⟩ := negPart_dstep_partial hnwf hget hppos2 hpc hpcent hppos hf0
      have hcne : dget (dinsert n d (round2 (dgetD n d 0 - pay))) c = dget n c :=
        dget_dinsert_ne n hdc _
      have hcstep : dget (dinsert n d (round2 (dgetD n d 0 - pay))) c = none ∨
          ∃ v, dget (dinsert n d (round2 (dgetD n d 0 - pay))) c = some v ∧ 0 < v ∧ IsCent v := by
        rw [hcne]
        rcases hgc0 : dget n c with _ | v
        · exact Or.inl rfl
        · exact Or.inr ⟨v, rfl, hcpos c hcmem v hgc0, hncent (c, v) (dget_mem hgc0)⟩
      have hneg2 := negPart_cstep hpcent hppos hcstep
      have hkeys2 : ∀ u, u ∈ dkeys (dinsert (dinsert n d (round2 (dgetD n d 0 - pay))) c
          (round2 (dgetD (dinsert n d (round2 (dgetD n d 0 - pay))) c 0 + pay))) →
          u ∈ dkeys n ∨ u = d ∨ u = c := by
        intro u hu
        rcases mem_dkeys_dinsert _ _ _ hu with h1 | h1
        · rcases mem_dkeys_dinsert _ _ _ h1 with h2 | h2
          · exact Or.inl h2
          · exact Or.inr (Or.inl h2)
        · exact Or.inr (Or.inr h1)
      have happ := ih
        (dinsert (dinsert n d (round2 (dgetD n d 0 - pay))) c
          (round2 (dgetD (dinsert n d (round2 (dgetD n d 0 - pay))) c 0 + pay)))
        (f0 ++ [(d, p + dAmt)]) ds hgd.tail hgc.tail hnd.2 hnc.2 hdisj2
        (by linarith [show pay = dAmt from hpayd, show pay = cAmt from hpayc])
        (dkeys_nodup_dinsert (dkeys_nodup_dinsert hnwf _ _) _ _)
        (values_dinsert_cent (values_dinsert_cent hncent (isCent_round2 _)) (isCent_round2 _))
        (by
          intro u hu v hv
          have huc : u ≠ c := fun he => hnc.1 (he ▸ hu)
          have hud : u ≠ d := by
            intro he
            exact hdisj u (he ▸ hdmem) (by rw [dkeys_cons]; exact List.mem_cons_of_mem _ hu)
          rw [dget_dinsert_ne _ huc, dget_dinsert_ne _ hud] at hv
          exact hcpos u (by rw [dkeys_cons]; exact List.mem_cons_of_mem _ hu) v hv)
        (Or.inl ⟨by
          intro u hu hmem
          rcases hkeys2 u hmem with h1 | h1 | h1
          · exact hfresh u hu h1
          · exact hnd2 u hu h1
          · exact hdcs u hu h1,
          by rw [hneg2, hneg1, hpayd],
          rfl⟩)
      rw [happ, hr, ← he2, ← hed, heda]
      simp
  | case4 d dAmt ds c cAmt cs pay dRem cRem hd hc ih =>
    intro n f0 r hgd hgc hnd hnc hdisj hsum hnwf hncent hcpos hshape
    have hda := hgd.head
    have hca := hgc.head
    rw [sumValues_cons, sumValues_cons] at hsum
    have hsum2 : dAmt + sumValues ds = cAmt + sumValues cs := hsum
    have hmind : min dAmt cAmt = dAmt := step_min_eq_left hda.1 hca.1 hd
    have hpayd : pay = dAmt := by
      show round2 (min dAmt cAmt) = dAmt
      rw [step_pay_eq hda.1 hca.1, hmind]
    have hpcent : IsCent pay := isCent_round2 _
    have hppos : eps < pay := step_pay_pos hda hca
    have heps0 : (0 : ℚ) < eps := by norm_num [eps]
    have hp0 : 0 < pay := by linarith
    have hcRem : cRem = cAmt - dAmt := by
      show round2 (cAmt - pay) = cAmt - dAmt
      rw [hpayd]
      exact round2_of_isCent (hca.1.sub hda.1)
    have hdmem : d ∈ dkeys ((d, dAmt) :: ds) := by
      rw [dkeys_cons]; exact List.mem_cons_self _ _
    have hcmem : c ∈ dkeys ((c, cAmt) :: cs) := by
      rw [dkeys_cons]; exact List.mem_cons_self _ _
    have hdc : c ≠ d := by
      intro he
      apply hdisj d hdmem
      rw [dkeys_cons]
      exact List.mem_cons.mpr (Or.inl he.symm)
    rw [dkeys_cons, List.nodup_cons] at hnd hnc
    rw [greedyOut]
    simp only [dif_pos hd, if_neg hc, if_pos hp0, List.singleton_append, netFold_cons,
      netStep]
    have hdisj2 : ∀ u ∈ dkeys ds, u ∉ dkeys ((c, cRem) :: cs) := by
      intro u hu hu2
      apply hdisj u (by rw [dkeys_cons]; exact List.mem_cons_of_mem _ hu)
      rw [dkeys_cons] at hu2 ⊢
      exact hu2
    have hnd2 : ∀ u ∈ dkeys ds, u ≠ d := by
      intro u hu he
      exact hnd.1 (he ▸ hu)
    have hdcs : ∀ u ∈ dkeys ds, u ≠ c := by
      intro u hu he
      exact hdisj u (by rw [dkeys_cons]; exact List.mem_cons_of_mem _ hu) (he ▸ hcmem)
    have hnodc : (dkeys ((c, cRem) :: cs)).Nodup := by
      rw [dkeys_cons, List.nodup_cons]
      exact ⟨hnc.1, hnc.2⟩
    have hgoodc : Good ((c, cRem) :: cs) :=
      good_cons ⟨isCent_round2 _, not_le.mp hc⟩ hgc.tail
    rcases hshape with ⟨hfresh, hf0, hr⟩ | ⟨d2, da2, ds2, p, hdeq, hfresh, hget, hppos2, hpc, hf0, hr⟩
    · have hdfresh : d ∉ dkeys n := hfresh d hdmem
      obtain ⟨hneg1, hget1⟩ := negPart_dstep_fresh hdfresh hpcent hppos
      have hcne : dget (dinsert n d (round2 (dgetD n d 0 - pay))) c = dget n c :=
        dget_dinsert_ne n hdc _
      have hcstep : dget (dinsert n d (round2 (dgetD n d 0 - pay))) c = none ∨
          ∃ v, dget (dinsert n d (round2 (dgetD n d 0 - pay))) c = some v ∧ 0 < v ∧ IsCent v := by
        rw [hcne]
        rcases hgc0 : dget n c with _ | v
        · exact Or.inl rfl
        · exact Or.inr ⟨v, rfl, hcpos c hcmem v hgc0, hncent (c, v) (dget_mem hgc0)⟩
      have hneg2 := negPart_cstep hpcent hppos hcstep
      have hgetc2 : 0 < round2 (dgetD (dinsert n d (round2 (dgetD n d 0 - pay))) c 0 + pay) := by
        rcases hcstep with h1 | ⟨v, h1, hvpos, hvc⟩
        · rw [dgetD, h1, Option.getD_none, zero_add, round2_of_isCent hpcent]
          exact hp0
        · rw [dgetD, h1, Option.getD_some, round2_of_isCent (hvc.add hpcent)]
          linarith
      have hkeys2 : ∀ u, u ∈ dkeys (dinsert (dinsert n d (round2 (dgetD n d 0 - pay))) c
          (round2 (dgetD (dinsert n d (round2 (dgetD n d 0 - pay))) c 0 + pay))) →
          u ∈ dkeys n ∨ u = d ∨ u = c := by
        intro u hu
        rcases mem_dkeys_dinsert _ _ _ hu with h1 | h1
        · rcases mem_dkeys_dinsert _ _ _ h1 with h2 | h2
          · exact Or.inl h2
          · exact Or.inr (Or.inl h2)
        · exact Or.inr (Or.inr h1)
      have happ := ih
        (dinsert (dinsert n d (round2 (dgetD n d 0 - pay))) c
          (round2 (dgetD (dinsert n d (round2 (dgetD n d 0 - pay))) c 0 + pay)))
        (f0 ++ [(d, dAmt)]) ds hgd.tail hgoodc hnd.2 hnodc hdisj2
        (by rw [sumValues_cons]
            show sumValues ds = cRem + sumValues cs
            rw [hcRem]
            linarith)
        (dkeys_nodup_dinsert (dkeys_nodup_dinsert hnwf _ _) _ _)
        (values_dinsert_cent (values_dinsert_cent hncent (isCent_round2 _)) (isCent_round2 _))
        (by
          intro u hu v hv
          rw [dkeys_cons] at hu
          rcases List.mem_cons.mp hu with he | hu2
          · rw [he, dget_dinsert_self] at hv
            injection hv with hv
            rw [← hv]
            exact hgetc2
          · have huc : u ≠ c := fun he => hnc.1 (he ▸ hu2)
            have hud : u ≠ d := by
              intro he
              exact hdisj u (he ▸ hdmem)
                (by rw [dkeys_cons]; exact List.mem_cons_of_mem _ hu2)
            rw [dget_dinsert_ne _ huc, dget_dinsert_ne _ hud] at hv
            exact hcpos u (by rw [dkeys_cons]; exact List.mem_cons_of_mem _ hu2) v hv)
        (Or.inl ⟨by
          intro u hu hmem
          rcases hkeys2 u hmem with h1 | h1 | h1
          · exact hfresh u (by rw [dkeys_cons]; exact List.mem_cons_of_mem _ hu) h1
          · exact hnd2 u hu h1
          · exact hdcs u hu h1,
          by rw [hneg2, hneg1, hf0, hpayd],
          rfl⟩)
      rw [happ, hr]
      simp
    · obtain ⟨he1, he2⟩ := List.cons.injEq .. ▸ hdeq
      obtain ⟨hed, heda⟩ := Prod.mk.injEq .. ▸ he1
      rw [← hed] at hget hf0
      rw [← he2] at hfresh
      obtain ⟨hneg1, hget1⟩ := negPart_dstep_partial hnwf hget hppos2 hpc hpcent hppos hf0
      have hcne : dget (dinsert n d (round2 (dgetD n d 0 - pay))) c = dget n c :=
        dget_dinsert_ne n hdc _
      have hcstep : dget (dinsert n d (round2 (dgetD n d 0 - pay))) c = none ∨
          ∃ v, dget (dinsert n d (round2 (dgetD n d 0 - pay))) c = some v ∧ 0 < v ∧ IsCent v := by
        rw [hcne]
        rcases hgc0 : dget n c with _ | v
        · exact Or.inl rfl
        · exact Or.inr ⟨v, rfl, hcpos c hcmem v hgc0, hncent (c, v) (dget_mem hgc0)⟩
      have hneg2 := negPart_cstep hpcent hppos hcstep
      have hgetc2 : 0 < round2 (dgetD (dinsert n d (round2 (dgetD n d 0 - pay))) c 0 + pay) := by
        rcases hcstep with h1 | ⟨v, h1, hvpos, hvc⟩
        · rw [dgetD, h1, Option.getD_none, zero_add, round2_of_isCent hpcent]
          exact hp0
        · rw [dgetD, h1, Option.getD_some, round2_of_isCent (hvc.add hpcent)]
          linarith
      have hkeys2 : ∀ u, u ∈ dkeys (dinsert (dinsert n d (round2 (dgetD n d 0 - pay))) c
          (round2 (dgetD (dinsert n d (round2 (dgetD n d 0 - pay))) c 0 + pay))) →
          u ∈ dkeys n ∨ u = d ∨ u = c := by
        intro u hu
        rcases mem_dkeys_dinsert _ _ _ hu with h1 | h1
        · rcases mem_dkeys_dinsert _ _ _ h1 with h2 | h2
          · exact Or.inl h2
          · exact Or.inr (Or.inl h2)
        · exact Or.inr (Or.inr h1)
      have happ := ih
        (dinsert (dinsert n d (round2 (dgetD n d 0 - pay))) c
          (round2 (dgetD (dinsert n d (round2 (dgetD n d 0 - pay))) c 0 + pay)))
        (f0 ++ [(d, p + dAmt)]) ds hgd.tail hgoodc hnd.2 hnodc hdisj2
        (by rw [sumValues_cons]
            show sumValues ds = cRem + sumValues cs
            rw [hcRem]
            linarith)
        (dkeys_nodup_dinsert (dkeys_nodup_dinsert hnwf _ _) _ _)
        (values_dinsert_cent (values_dinsert_cent hncent (isCent_round2 _)) (isCent_round2 _))
        (by
          intro u hu v hv
          rw [dkeys_cons] at hu
          rcases List.mem_cons.mp hu with he | hu2
          · rw [he, dget_dinsert_self] at hv
            injection hv with hv
            rw [← hv]
            exact hgetc2
          · have huc : u ≠ c := fun he => hnc.1 (he ▸ hu2)
            have hud : u ≠ d := by
              intro he
              exact hdisj u (he ▸ hdmem)
                (by rw [dkeys_cons]; exact List.mem_cons_of_mem _ hu2)
            rw [dget_dinsert_ne _ huc, dget_dinsert_ne _ hud] at hv
            exact hcpos u (by rw [dkeys_cons]; exact List.mem_cons_of_mem _ hu2) v hv)
        (Or.inl ⟨by
          intro u hu hmem
          rcases hkeys2 u hmem with h1 | h1 | h1
          · exact hfresh u hu h1
          · exact hnd2 u hu h1
          · exact hdcs u hu h1,
          by rw [hneg2, hneg1, hpayd],
          rfl⟩)
      rw [happ, hr, ← he2, ← hed, heda]
      simp
  | case5 d dAmt ds c cAmt cs pay dRem cRem hd hc ih =>
    intro n f0 r hgd hgc hnd hnc hdisj hsum hnwf hncent hcpos hshape
    have hda := hgd.head
    have hca := hgc.head
    rw [sumValues_cons, sumValues_cons] at hsum
    have hsum2 : dAmt + sumValues ds = cAmt + sumValues cs := hsum
    have hminc : min dAmt cAmt = cAmt := step_min_eq_right hda.1 hca.1 hc
    have hpayc : pay = cAmt := by
      show round2 (min dAmt cAmt) = cAmt
      rw [step_pay_eq hda.1 hca.1, hminc]
    have hpcent : IsCent pay := isCent_round2 _
    have hppos : eps < pay := step_pay_pos hda hca
    have heps0 : (0 : ℚ) < eps := by norm_num [eps]
    have hp0 : 0 < pay := by linarith
    have hdRem : dRem = dAmt - cAmt := by
      show round2 (dAmt - pay) = dAmt - cAmt
      rw [hpayc]
      exact round2_of_isCent (hda.1.sub hca.1)
    have hdmem : d ∈ dkeys ((d, dAmt) :: ds) := by
      rw [dkeys_cons]; exact List.mem_cons_self _ _
    have hcmem : c ∈ dkeys ((c, cAmt) :: cs) := by
      rw [dkeys_cons]; exact List.mem_cons_self _ _
    have hdc : c ≠ d := by
      intro he
      apply hdisj d hdmem
      rw [dkeys_cons]
      exact List.mem_cons.mpr (Or.inl he.symm)
    rw [dkeys_cons, List.nodup_cons] at hnd hnc
    rw [greedyOut]
    simp only [dif_neg hd, dif_pos hc, if_pos hp0, List.singleton_append, netFold_cons,
      netStep]
    have hdisj2 : ∀ u ∈ dkeys ((d, dRem) :: ds), u ∉ dkeys cs := by
      intro u hu hu2
      apply hdisj u _ (by rw [dkeys_cons]; exact List.mem_cons_of_mem _ hu2)
      rw [dkeys_cons] at hu ⊢
      exact hu
    have hnodd : (dkeys ((d, dRem) :: ds)).Nodup := by
      rw [dkeys_cons, List.nodup_cons]
      exact ⟨hnd.1, hnd.2⟩
    have hgoodd : Good ((d, dRem) :: ds) :=
      good_cons ⟨isCent_round2 _, not_le.mp hd⟩ hgd.tail
    have hnd2 : ∀ u ∈ dkeys ds, u ≠ d := by
      intro u hu he
      exact hnd.1 (he ▸ hu)
    have hdcs : ∀ u ∈ dkeys ds, u ≠ c := by
      intro u hu he
      exact hdisj u (by rw [dkeys_cons]; exact List.mem_cons_of_mem _ hu) (he ▸ hcmem)
    rcases hshape with ⟨hfresh, hf0, hr⟩ | ⟨d2, da2, ds2, p, hdeq, hfresh, hget, hppos2, hpc, hf0, hr⟩
    · have hdfresh : d ∉ dkeys n := hfresh d hdmem
      obtain ⟨hneg1, hget1⟩ := negPart_dstep_fresh hdfresh hpcent hppos
      have hcne : dget (dinsert n d (round2 (dgetD n d 0 - pay))) c = dget n c :=
        dget_dinsert_ne n hdc _
      have hcstep : dget (dinsert n d (round2 (dgetD n d 0 - pay))) c = none ∨
          ∃ v, dget (dinsert n d (round2 (dgetD n d 0 - pay))) c = some v ∧ 0 < v ∧ IsCent v := by
        rw [hcne]
        rcases hgc0 : dget n c with _ | v
        · exact Or.inl rfl
        · exact Or.inr ⟨v, rfl, hcpos c hcmem v hgc0, hncent (c, v) (dget_mem hgc0)⟩
      have hneg2 := negPart_cstep hpcent hppos hcstep
      have hgetd2 : dget (dinsert (dinsert n d (round2 (dgetD n d 0 - pay))) c
          (round2 (dgetD (dinsert n d (round2 (dgetD n d 0 - pay))) c 0 + pay))) d =
          some (-pay) := by
        rw [dget_dinsert_ne _ (fun he => hdc he.symm)]
        exact hget1
      have hkeys2 : ∀ u, u ∈ dkeys (dinsert (dinsert n d (round2 (dgetD n d 0 - pay))) c
          (round2 (dgetD (dinsert n d (round2 (dgetD n d 0 - pay))) c 0 + pay))) →
          u ∈ dkeys n ∨ u = d ∨ u = c := by
        intro u hu
        rcases mem_dkeys_dinsert _ _ _ hu with h1 | h1
        · rcases mem_dkeys_dinsert _ _ _ h1 with h2 | h2
          · exact Or.inl h2
          · exact Or.inr (Or.inl h2)
        · exact Or.inr (Or.inr h1)
      have happ := ih
        (dinsert (dinsert n d (round2 (dgetD n d 0 - pay))) c
          (round2 (dgetD (dinsert n d (round2 (dgetD n d 0 - pay))) c 0 + pay)))
        f0 ((d, pay + dRem) :: ds) hgoodd hgc.tail hnodd hnc.2 hdisj2
        (by rw [sumValues_cons]
            show dRem + sumValues ds = sumValues cs
            rw [hdRem]
            linarith)
        (dkeys_nodup_dinsert (dkeys_nodup_dinsert hnwf _ _) _ _)
        (values_dinsert_cent (values_dinsert_cent hncent (isCent_round2 _)) (isCent_round2 _))
        (by
          intro u hu v hv
          have huc : u ≠ c := fun he => hnc.1 (he ▸ hu)
          have hud : u ≠ d := by
            intro he
            exact hdisj u (he ▸ hdmem) (by rw [dkeys_cons]; exact List.mem_cons_of_mem _ hu)
          rw [dget_dinsert_ne _ huc, dget_dinsert_ne _ hud] at hv
          exact hcpos u (by rw [dkeys_cons]; exact List.mem_cons_of_mem _ hu) v hv)
        (Or.inr ⟨d, dRem, ds, pay, rfl, by
          intro u hu hmem
          rcases hkeys2 u hmem with h1 | h1 | h1
          · exact hfresh u (by rw [dkeys_cons]; exact List.mem_cons_of_mem _ hu) h1
          · exact hnd2 u hu h1
          · exact hdcs u hu h1,
          hgetd2, hppos, hpcent, by rw [hneg2, hneg1, hf0], rfl⟩)
      rw [happ, hr]
      have hval : pay + dRem = dAmt := by rw [hpayc, hdRem]; ring
      rw [hval]
    · obtain ⟨he1, he2⟩ := List.cons.injEq .. ▸ hdeq
      obtain ⟨hed, heda⟩ := Prod.mk.injEq .. ▸ he1
      rw [← hed] at hget hf0
      rw [← he2] at hfresh
      obtain ⟨hneg1, hget1⟩ := negPart_dstep_partial hnwf hget hppos2 hpc hpcent hppos hf0
      have hcne : dget (dinsert n d (round2 (dgetD n d 0 - pay))) c = dget n c :=
        dget_dinsert_ne n hdc _
      have hcstep : dget (dinsert n d (round2 (dgetD n d 0 - pay))) c = none ∨
          ∃ v, dget (dinsert n d (round2 (dgetD n d 0 - pay))) c = some v ∧ 0 < v ∧ IsCent v := by
        rw [hcne]
        rcases hgc0 : dget n c with _ | v
        · exact Or.inl rfl
        · exact Or.inr ⟨v, rfl, hcpos c hcmem v hgc0, hncent (c, v) (dget_mem hgc0)⟩
      have hneg2 := negPart_cstep hpcent hppos hcstep
      have hgetd2 : dget (dinsert (dinsert n d (round2 (dgetD n d 0 - pay))) c
          (round2 (dgetD (dinsert n d (round2 (dgetD n d 0 - pay))) c 0 + pay))) d =
          some (-(p + pay)) := by
        rw [dget_dinsert_ne _ (fun he => hdc he.symm)]
        exact hget1
      have hkeys2 : ∀ u, u ∈ dkeys (dinsert (dinsert n d (round2 (dgetD n d 0 - pay))) c
          (round2 (dgetD (dinsert n d (round2 (dgetD n d 0 - pay))) c 0 + pay))) →
          u ∈ dkeys n ∨ u = d ∨ u = c := by
        intro u hu
        rcases mem_dkeys_dinsert _ _ _ hu with h1 | h1
        · rcases mem_dkeys_dinsert _ _ _ h1 with h2 | h2
          · exact Or.inl h2
          · exact Or.inr (Or.inl h2)
        · exact Or.inr (Or.inr h1)
      have happ := ih
        (dinsert (dinsert n d (round2 (dgetD n d 0 - pay))) c
          (round2 (dgetD (dinsert n d (round2 (dgetD n d 0 - pay))) c 0 + pay)))
        f0 ((d, (p + pay) + dRem) :: ds) hgoodd hgc.tail hnodd hnc.2 hdisj2
        (by rw [sumValues_cons]
            show dRem + sumValues ds = sumValues cs
            rw [hdRem]
            linarith)
        (dkeys_nodup_dinsert (dkeys_nodup_dinsert hnwf _ _) _ _)
        (values_dinsert_cent (values_dinsert_cent hncent (isCent_round2 _)) (isCent_round2 _))
        (by
          intro u hu v hv
          have huc : u ≠ c := fun he => hnc.1 (he ▸ hu)
          have hud : u ≠ d := by
            intro he
            exact hdisj u (he ▸ hdmem) (by rw [dkeys_cons]; exact List.mem_cons_of_mem _ hu)
          rw [dget_dinsert_ne _ huc, dget_dinsert_ne _ hud] at hv
          exact hcpos u (by rw [dkeys_cons]; exact List.mem_cons_of_mem _ hu) v hv)
        (Or.inr ⟨d, dRem, ds, p + pay, rfl, by
          intro u hu hmem
          rcases hkeys2 u hmem with h1 | h1 | h1
          · exact hfresh u hu h1
          · exact hnd2 u hu h1
          · exact hdcs u hu h1,
          hgetd2, by linarith, hpc.add hpcent, by rw [hneg2, hneg1], rfl⟩)
      rw [happ, hr, ← he2, ← hed, ← heda]
      have hval : p + pay + dRem = p + dAmt := by rw [hpayc, hdRem]; ring
      rw [hval]
  | case6 d dAmt ds c cAmt cs pay dRem cRem hd hc =>
    exact absurd (greedy_advances dAmt cAmt) (not_or.mpr ⟨hd, hc⟩)

/-- Mirror of `greedy_negPart`: running the net fold over the greedy output
recovers the creditor worklist in the positive partition of the resulting
net dict, in order, with full magnitudes. -/
theorem greedy_posPart (debtors creditors : List (String × ℚ)) :
    ∀ (n f0 r : List (String × ℚ)),
    Good debtors → Good creditors →
    (dkeys debtors).Nodup → (dkeys creditors).Nodup →
    (∀ u ∈ dkeys debtors, u ∉ dkeys creditors) →
    sumValues debtors = sumValues creditors →
    (dkeys n).Nodup → (∀ x ∈ n, IsCent x.2) →
    DNeg debtors n →
    ((DFresh creditors n ∧ posPart n = f0 ∧ r = creditors) ∨
      (∃ c ca cs p, creditors = (c, ca) :: cs ∧ DFresh cs n ∧ dget n c = some p ∧
        eps < p ∧ IsCent p ∧ posPart n = f0 ++ [(c, p)] ∧ r = (c, p + ca) :: cs)) →
    posPart (netFold n (greedyOut debtors creditors)) = f0 ++ r := by
  induction debtors, creditors using greedyOut.induct with
  | case1 creditors =>
    intro n f0 r _ hgc _ _ _ hsum _ _ _ hshape
    rw [sumValues_nil] at hsum
    have hnil : creditors = [] := good_sum_zero_nil hgc hsum.symm
    rw [greedyOut, netFold_nil]
    rcases hshape with ⟨_, hf0, hr⟩ | ⟨c2, ca2, cs2, p, hceq, _⟩
    · rw [hf0, hr, hnil, List.append_nil]
    · rw [hnil] at hceq
      exact absurd hceq (by simp)
  | case2 d ds =>
    intro n f0 r hgd _ _ _ _ hsum _ _ _ _
    rw [sumValues_nil] at hsum
    exact absurd hsum (by linarith [good_sum_pos hgd])
  | case3 d dAmt ds c cAmt cs pay dRem cRem hd hc ih =>
    intro n f0 r hgd hgc hnd hnc hdisj hsum hnwf hncent hdneg hshape
    have hda := hgd.head
    have hca := hgc.head
    rw [sumValues_cons, sumValues_cons] at hsum
    have hsum2 : dAmt + sumValues ds = cAmt + sumValues cs := hsum
    have hmind : min dAmt cAmt = dAmt := step_min_eq_left hda.1 hca.1 hd
    have hminc : min dAmt cAmt = cAmt := step_min_eq_right hda.1 hca.1 hc
    have hpayd : pay = dAmt := by
      show round2 (min dAmt cAmt) = dAmt
      rw [step_pay_eq hda.1 hca.1, hmind]
    have hpayc : pay = cAmt := by
      show round2 (min dAmt cAmt) = cAmt
      rw [step_pay_eq hda.1 hca.1, hminc]
    have hpcent : IsCent pay := isCent_round2 _
    have hppos : eps < pay := step_pay_pos hda hca
    have heps0 : (0 : ℚ) < eps := by norm_num [eps]
    have hp0 : 0 < pay := by linarith
    have hdmem : d ∈ dkeys ((d, dAmt) :: ds) := by
      rw [dkeys_cons]; exact List.mem_cons_self _ _
    have hcmem : c ∈ dkeys ((c, cAmt) :: cs) := by
      rw [dkeys_cons]; exact List.mem_cons_self _ _
    have hdc : c ≠ d := by
      intro he
      apply hdisj d hdmem
      rw [dkeys_cons]
      exact List.mem_cons.mpr (Or.inl he.symm)
    rw [dkeys_cons, List.nodup_cons] at hnd hnc
    rw [greedyOut]
    simp only [dif_pos hd, if_pos hc, if_pos hp0, List.singleton_append, netFold_cons,
      netStep]
    have hdisj2 : ∀ u ∈ dkeys ds, u ∉ dkeys cs := by
      intro u hu hu2
      exact hdisj u (by rw [dkeys_cons]; exact List.mem_cons_of_mem _ hu)
        (by rw [dkeys_cons]; exact List.mem_cons_of_mem _ hu2)
    have hnd2 : ∀ u ∈ dkeys ds, u ≠ d := by
      intro u hu he
      exact hnd.1 (he ▸ hu)
    have hdcs : ∀ u ∈ dkeys ds, u ≠ c := by
      intro u hu he
      exact hdisj u (by rw [dkeys_cons]; exact List.mem_cons_of_mem _ hu) (he ▸ hcmem)
    have hcd2 : ∀ u ∈ dkeys cs, u ≠ d := by
      intro u hu he
      exact hdisj d hdmem (by rw [dkeys_cons]; exact List.mem_cons_of_mem _ (he ▸ hu))
    have hccs : ∀ u ∈ dkeys cs, u ≠ c := by
      intro u hu he
      exact hnc.1 (he ▸ hu)
    have hdstep : dget n d = none ∨ ∃ v, dget n d = some v ∧ v < 0 ∧ IsCent v := by
      rcases hgd0 : dget n d with _ | v
      · exact Or.inl rfl
      · exact Or.inr ⟨v, rfl, hdneg d hdmem v hgd0, hncent (d, v) (dget_mem hgd0)⟩
    have hpos1 := posPart_dstep hpcent hppos hdstep
    have hkeys2 : ∀ u, u ∈ dkeys (dinsert (dinsert n d (round2 (dgetD n d 0 - pay))) c
        (round2 (dgetD (dinsert n d (round2 (dgetD n d 0 - pay))) c 0 + pay))) →
        u ∈ dkeys n ∨ u = d ∨ u = c := by
      intro u hu
      rcases mem_dkeys_dinsert _ _ _ hu with h1 | h1
      · rcases mem_dkeys_dinsert _ _ _ h1 with h2 | h2
        · exact Or.inl h2
        · exact Or.inr (Or.inl h2)
      · exact Or.inr (Or.inr h1)
    rcases hshape with ⟨hfresh, hf0, hr⟩ | ⟨c2, ca2, cs2, p, hceq, hfresh, hget, hppos2, hpc, hf0, hr⟩
    · -- the current creditor is fresh in the net dict
      have hcfresh : c ∉ dkeys n := hfresh c hcmem
      have hcfresh1 : c ∉ dkeys (dinsert n d (round2 (dgetD n d 0 - pay))) := by
        intro hmem
        rcases mem_dkeys_dinsert _ _ _ hmem with h1 | h1
        · exact hcfresh h1
        · exact hdc h1
      obtain ⟨hpos2, hget2⟩ := posPart_cstep_fresh hcfresh1 hpcent hppos
      have happ := ih
        (dinsert (dinsert n d (round2 (dgetD n d 0 - pay))) c
          (round2 (dgetD (dinsert n d (round2 (dgetD n d 0 - pay))) c 0 + pay)))
        (f0 ++ [(c, cAmt)]) cs hgd.tail hgc.tail hnd.2 hnc.2 hdisj2
        (by linarith [show pay = dAmt from hpayd, show pay = cAmt from hpayc])
        (dkeys_nodup_dinsert (dkeys_nodup_dinsert hnwf _ _) _ _)
        (values_dinsert_cent (values_dinsert_cent hncent (isCent_round2 _)) (isCent_round2 _))
        (by
          intro u hu v hv
          have huc : u ≠ c := hdcs u hu
          have hud : u ≠ d := hnd2 u hu
          rw [dget_dinsert_ne _ huc, dget_dinsert_ne _ hud] at hv
          exact hdneg u (by rw [dkeys_cons]; exact List.mem_cons_of_mem _ hu) v hv)
        (Or.inl ⟨by
          intro u hu hmem
          rcases hkeys2 u hmem with h1 | h1 | h1
          · exact hfresh u (by rw [dkeys_cons]; exact List.mem_cons_of_mem _ hu) h1
          · exact hcd2 u hu h1
          · exact hccs u hu h1,
          by rw [hpos2, hpos1, hf0, hpayc],
          rfl⟩)
      rw [happ, hr]
      simp
    · -- the current creditor already carries part of its balance
      obtain ⟨he1, he2⟩ := List.cons.injEq .. ▸ hceq
      obtain ⟨hec, heca⟩ := Prod.mk.injEq .. ▸ he1
      rw [← hec] at hget hf0
      rw [← he2] at hfresh
      have hget1 : dget (dinsert n d (round2 (dgetD n d 0 - pay))) c = some p := by
        rw [dget_dinsert_ne n hdc]
        exact hget
      have hf1 : posPart (dinsert n d (round2 (dgetD n d 0 - pay))) = f0 ++ [(c, p)] := by
        rw [hpos1]
        exact hf0
      obtain ⟨hpos2, hget2⟩ := posPart_cstep_partial (dkeys_nodup_dinsert hnwf _ _) hget1
        hppos2 hpc hpcent hppos hf1
      have happ := ih
        (dinsert (dinsert n d (round2 (dgetD n d 0 - pay))) c
          (round2 (dgetD (dinsert n d (round2 (dgetD n d 0 - pay))) c 0 + pay)))
        (f0 ++ [(c, p + cAmt)]) cs hgd.tail hgc.tail hnd.2 hnc.2 hdisj2
        (by linarith [show pay = dAmt from hpayd, show pay = cAmt from hpayc])
        (dkeys_nodup_dinsert (dkeys_nodup_dinsert hnwf _ _) _ _)
        (values_dinsert_cent (values_dinsert_cent hncent (isCent_round2 _)) (isCent_round2 _))
        (by
          intro u hu v hv
          have huc : u ≠ c := hdcs u hu
          have hud : u ≠ d := hnd2 u hu
          rw [dget_dinsert_ne _ huc, dget_dinsert_ne _ hud] at hv
          exact hdneg u (by rw [dkeys_cons]; exact List.mem_cons_of_mem _ hu) v hv)
        (Or.inl ⟨by
          intro u hu hmem
          rcases hkeys2 u hmem with h1 | h1 | h1
          · exact hfresh u hu h1
          · exact hcd2 u hu h1
          · exact hccs u hu h1,
          by rw [hpos2, hpayc],
          rfl⟩)
      rw [happ, hr, ← he2, ← hec, heca]
      simp
  | case4 d dAmt ds c cAmt cs pay dRem cRem hd hc ih =>
    intro n f0 r hgd hgc hnd hnc hdisj hsum hnwf hncent hdneg hshape
    have hda := hgd.head
    have hca := hgc.head
    rw [sumValues_cons, sumValues_cons] at hsum
    have hsum2 : dAmt + sumValues ds = cAmt + sumValues cs := hsum
    have hmind : min dAmt cAmt = dAmt := step_min_eq_left hda.1 hca.1 hd
    have hpayd : pay = dAmt := by
      show round2 (min dAmt cAmt) = dAmt
      rw [step_pay_eq hda.1 hca.1, hmind]
    have hpcent : IsCent pay := isCent_round2 _
    have hppos : eps < pay := step_pay_pos hda hca
    have heps0 : (0 : ℚ) < eps := by norm_num [eps]
    have hp0 : 0 < pay := by linarith
    have hcRem : cRem = cAmt - dAmt := by
      show round2 (cAmt - pay) = cAmt - dAmt
      rw [hpayd]
      exact round2_of_isCent (hca.1.sub hda.1)
    have hdmem : d ∈ dkeys ((d, dAmt) :: ds) := by
      rw [dkeys_cons]; exact List.mem_cons_self _ _
    have hcmem : c ∈ dkeys ((c, cAmt) :: cs) := by
      rw [dkeys_cons]; exact List.mem_cons_self _ _
    have hdc : c ≠ d := by
      intro he
      apply hdisj d hdmem
      rw [dkeys_cons]
      exact List.mem_cons.mpr (Or.inl he.symm)
    rw [dkeys_cons, List.nodup_cons] at hnd hnc
    rw [greedyOut]
    simp only [dif_pos hd, if_neg hc, if_pos hp0, List.singleton_append, netFold_cons,
      netStep]
    have hdisj2 : ∀ u ∈ dkeys ds, u ∉ dkeys ((c, cRem) :: cs) := by
      intro u hu hu2
      apply hdisj u (by rw [dkeys_cons]; exact List.mem_cons_of_mem _ hu)
      rw [dkeys_cons] at hu2 ⊢
      exact hu2
    have hnd2 : ∀ u ∈ dkeys ds, u ≠ d := by
      intro u hu he
      exact hnd.1 (he ▸ hu)
    have hdcs : ∀ u ∈ dkeys ds, u ≠ c := by
      intro u hu he
      exact hdisj u (by rw [dkeys_cons]; exact List.mem_cons_of_mem _ hu) (he ▸ hcmem)
    have hcd2 : ∀ u ∈ dkeys cs, u ≠ d := by
      intro u hu he
      exact hdisj d hdmem (by rw [dkeys_cons]; exact List.mem_cons_of_mem _ (he ▸ hu))
    have hccs : ∀ u ∈ dkeys cs, u ≠ c := by
      intro u hu he
      exact hnc.1 (he ▸ hu)
    have hnodc : (dkeys ((c, cRem) :: cs)).Nodup := by
      rw [dkeys_cons, List.nodup_cons]
      exact ⟨hnc.1, hnc.2⟩
    have hgoodc : Good ((c, cRem) :: cs) :=
      good_cons ⟨isCent_round2 _, not_le.mp hc⟩ hgc.tail
    have hdstep : dget n d = none ∨ ∃ v, dget n d = some v ∧ v < 0 ∧ IsCent v := by
      rcases hgd0 : dget n d with _ | v
      · exact Or.inl rfl
      · exact Or.inr ⟨v, rfl, hdneg d hdmem v hgd0, hncent (d, v) (dget_mem hgd0)⟩
    have hpos1 := posPart_dstep hpcent hppos hdstep
    have hkeys2 : ∀ u, u ∈ dkeys (dinsert (dinsert n d (round2 (dgetD n d 0 - pay))) c
        (round2 (dgetD (dinsert n d (round2 (dgetD n d 0 - pay))) c 0 + pay))) →
        u ∈ dkeys n ∨ u = d ∨ u = c := by
      intro u hu
      rcases mem_dkeys_dinsert _ _ _ hu with h1 | h1
      · rcases mem_dkeys_dinsert _ _ _ h1 with h2 | h2
        · exact Or.inl h2
        · exact Or.inr (Or.inl h2)
      · exact Or.inr (Or.inr h1)
    rcases hshape with ⟨hfresh, hf0, hr⟩ | ⟨c2, ca2, cs2, p, hceq, hfresh, hget, hppos2, hpc, hf0, hr⟩
    · have hcfresh : c ∉ dkeys n := hfresh c hcmem
      have hcfresh1 : c ∉ dkeys (dinsert n d (round2 (dgetD n d 0 - pay))) := by
        intro hmem
        rcases mem_dkeys_dinsert _ _ _ hmem with h1 | h1
        · exact hcfresh h1
        · exact hdc h1
      obtain ⟨hpos2, hget2⟩ := posPart_cstep_fresh hcfresh1 hpcent hppos
      have happ := ih
        (dinsert (dinsert n d (round2 (dgetD n d 0 - pay))) c
          (round2 (dgetD (dinsert n d (round2 (dgetD n d 0 - pay))) c 0 + pay)))
        f0 ((c, pay + cRem) :: cs) hgd.tail hgoodc hnd.2 hnodc hdisj2
        (by rw [sumValues_cons]
            show sumValues ds = cRem + sumValues cs
            rw [hcRem]
            linarith)
        (dkeys_nodup_dinsert (dkeys_nodup_dinsert hnwf _ _) _ _)
        (values_dinsert_cent (values_dinsert_cent hncent (isCent_round2 _)) (isCent_round2 _))
        (by
          intro u hu v hv
          have huc : u ≠ c := hdcs u hu
          have hud : u ≠ d := hnd2 u hu
          rw [dget_dinsert_ne _ huc, dget_dinsert_ne _ hud] at hv
          exact hdneg u (by rw [dkeys_cons]; exact List.mem_cons_of_mem _ hu) v hv)
        (Or.inr ⟨c, cRem, cs, pay, rfl, by
          intro u hu hmem
          rcases hkeys2 u hmem with h1 | h1 | h1
          · exact hfresh u (by rw [dkeys_cons]; exact List.mem_cons_of_mem _ hu) h1
          · exact hcd2 u hu h1
          · exact hccs u hu h1,
          hget2, hppos, hpcent, by rw [hpos2, hpos1, hf0], rfl⟩)
      rw [happ, hr]
      have hval : pay + cRem = cAmt := by rw [hpayd, hcRem]; ring
      rw [hval]
    · obtain ⟨he1, he2⟩ := List.cons.injEq .. ▸ hceq
      obtain ⟨hec, heca⟩ := Prod.mk.injEq .. ▸ he1
      rw [← hec] at hget hf0
      rw [← he2] at hfresh
      have hget1 : dget (dinsert n d (round2 (dgetD n d 0 - pay))) c = some p := by
        rw [dget_dinsert_ne n hdc]
        exact hget
      have hf1 : posPart (dinsert n d (round2 (dgetD n d 0 - pay))) = f0 ++ [(c, p)] := by
        rw [hpos1]
        exact hf0
      obtain ⟨hpos2, hget2⟩ := posPart_cstep_partial (dkeys_nodup_dinsert hnwf _ _) hget1
        hppos2 hpc hpcent hppos hf1
      have happ := ih
        (dinsert (dinsert n d (round2 (dgetD n d 0 - pay))) c
          (round2 (dgetD (dinsert n d (round2 (dgetD n d 0 - pay))) c 0 + pay)))
        f0 ((c, (p + pay) + cRem) :: cs) hgd.tail hgoodc hnd.2 hnodc hdisj2
        (by rw [sumValues_cons]
            show sumValues ds = cRem + sumValues cs
            rw [hcRem]
            linarith)
        (dkeys_nodup_dinsert (dkeys_nodup_dinsert hnwf _ _) _ _)
        (values_dinsert_cent (values_dinsert_cent hncent (isCent_round2 _)) (isCent_round2 _))
        (by
          intro u hu v hv
          have huc : u ≠ c := hdcs u hu
          have hud : u ≠ d := hnd2 u hu
          rw [dget_dinsert_ne _ huc, dget_dinsert_ne _ hud] at hv
          exact hdneg u (by rw [dkeys_cons]; exact List.mem_cons_of_mem _ hu) v hv)
        (Or.inr ⟨c, cRem, cs, p + pay, rfl, by
          intro u hu hmem
          rcases hkeys2 u hmem with h1 | h1 | h1
          · exact hfresh u hu h1
          · exact hcd2 u hu h1
          · exact hccs u hu h1,
          hget2, by linarith, hpc.add hpcent, by rw [hpos2], rfl⟩)
      rw [happ, hr, ← he2, ← hec, ← heca]
      have hval : p + pay + cRem = p + cAmt := by rw [hpayd, hcRem]; ring
      rw [hval]
  | case5 d dAmt ds c cAmt cs pay dRem cRem hd hc ih =>
    intro n f0 r hgd hgc hnd hnc hdisj hsum hnwf hncent hdneg hshape
    have hda := hgd.head
    have hca := hgc.head
    rw [sumValues_cons, sumValues_cons] at hsum
    have hsum2 : dAmt + sumValues ds = cAmt + sumValues cs := hsum
    have hminc : min dAmt cAmt = cAmt := step_min_eq_right hda.1 hca.1 hc
    have hpayc : pay = cAmt := by
      show round2 (min dAmt cAmt) = cAmt
      rw [step_pay_eq hda.1 hca.1, hminc]
    have hpcent : IsCent pay := isCent_round2 _
    have hppos : eps < pay := step_pay_pos hda hca
    have heps0 : (0 : ℚ) < eps := by norm_num [eps]
    have hp0 : 0 < pay := by linarith
    have hdRem : dRem = dAmt - cAmt := by
      show round2 (dAmt - pay) = dAmt - cAmt
      rw [hpayc]
      exact round2_of_isCent (hda.1.sub hca.1)
    have hdmem : d ∈ dkeys ((d, dAmt) :: ds) := by
      rw [dkeys_cons]; exact List.mem_cons_self _ _
    have hcmem : c ∈ dkeys ((c, cAmt) :: cs) := by
      rw [dkeys_cons]; exact List.mem_cons_self _ _
    have hdc : c ≠ d := by
      intro he
      apply hdisj d hdmem
      rw [dkeys_cons]
      exact List.mem_cons.mpr (Or.inl he.symm)
    rw [dkeys_cons, List.nodup_cons] at hnd hnc
    rw [greedyOut]
    simp only [dif_neg hd, dif_pos hc, if_pos hp0, List.singleton_append, netFold_cons,
      netStep]
    have hdisj2 : ∀ u ∈ dkeys ((d, dRem) :: ds), u ∉ dkeys cs := by
      intro u hu hu2
      apply hdisj u _ (by rw [dkeys_cons]; exact List.mem_cons_of_mem _ hu2)
      rw [dkeys_cons] at hu ⊢
      exact hu
    have hnodd : (dkeys ((d, dRem) :: ds)).Nodup := by
      rw [dkeys_cons, List.nodup_cons]
      exact ⟨hnd.1, hnd.2⟩
    have hgoodd : Good ((d, dRem) :: ds) :=
      good_cons ⟨isCent_round2 _, not_le.mp hd⟩ hgd.tail
    have hnd2 : ∀ u ∈ dkeys ds, u ≠ d := by
      intro u hu he
      exact hnd.1 (he ▸ hu)
    have hdcs : ∀ u ∈ dkeys ds, u ≠ c := by
      intro u hu he
      exact hdisj u (by rw [dkeys_cons]; exact List.mem_cons_of_mem _ hu) (he ▸ hcmem)
    have hcd2 : ∀ u ∈ dkeys cs, u ≠ d := by
      intro u hu he
      exact hdisj d hdmem (by rw [dkeys_cons]; exact List.mem_cons_of_mem _ (he ▸ hu))
    have hccs : ∀ u ∈ dkeys cs, u ≠ c := by
      intro u hu he
      exact hnc.1 (he ▸ hu)
    have hdstep : dget n d = none ∨ ∃ v, dget n d = some v ∧ v < 0 ∧ IsCent v := by
      rcases hgd0 : dget n d with _ | v
      · exact Or.inl rfl
      · exact Or.inr ⟨v, rfl, hdneg d hdmem v hgd0, hncent (d, v) (dget_mem hgd0)⟩
    have hpos1 := posPart_dstep hpcent hppos hdstep
    have hgetd2neg : round2 (dgetD n d 0 - pay) < 0 := by
      rcases hdstep with h1 | ⟨v, h1, hvneg, hvc⟩
      · rw [dgetD, h1, Option.getD_none, zero_sub, round2_of_isCent hpcent.neg]
        linarith
      · rw [dgetD, h1, Option.getD_some, round2_of_isCent (hvc.sub hpcent)]
        linarith
    have hkeys2 : ∀ u, u ∈ dkeys (dinsert (dinsert n d (round2 (dgetD n d 0 - pay))) c
        (round2 (dgetD (dinsert n d (round2 (dgetD n d 0 - pay))) c 0 + pay))) →
        u ∈ dkeys n ∨ u = d ∨ u = c := by
      intro u hu
      rcases mem_dkeys_dinsert _ _ _ hu with h1 | h1
      · rcases mem_dkeys_dinsert _ _ _ h1 with h2 | h2
        · exact Or.inl h2
        · exact Or.inr (Or.inl h2)
      · exact Or.inr (Or.inr h1)
    have hdneg2 : DNeg ((d, dRem) :: ds) (dinsert (dinsert n d (round2 (dgetD n d 0 - pay))) c
        (round2 (dgetD (dinsert n d (round2 (dgetD n d 0 - pay))) c 0 + pay))) := by
      intro u hu v hv
      rw [dkeys_cons] at hu
      rcases List.mem_cons.mp hu with he | hu2
      · rw [he, dget_dinsert_ne _ (fun h => hdc h.symm), dget_dinsert_self] at hv
        injection hv with hv
        rw [← hv]
        exact hgetd2neg
      · have huc : u ≠ c := hdcs u hu2
        have hud : u ≠ d := hnd2 u hu2
        rw [dget_dinsert_ne _ huc, dget_dinsert_ne _ hud] at hv
        exact hdneg u (by rw [dkeys_cons]; exact List.mem_cons_of_mem _ hu2) v hv
    rcases hshape with ⟨hfresh, hf0, hr⟩ | ⟨c2, ca2, cs2, p, hceq, hfresh, hget, hppos2, hpc, hf0, hr⟩
    · have hcfresh : c ∉ dkeys n := hfresh c hcmem
      have hcfresh1 : c ∉ dkeys (dinsert n d (round2 (dgetD n d 0 - pay))) := by
        intro hmem
        rcases mem_dkeys_dinsert _ _ _ hmem with h1 | h1
        · exact hcfresh h1
        · exact hdc h1
      obtain ⟨hpos2, hget2⟩ := posPart_cstep_fresh hcfresh1 hpcent hppos
      have happ := ih
        (dinsert (dinsert n d (round2 (dgetD n d 0 - pay))) c
          (round2 (dgetD (dinsert n d (round2 (dgetD n d 0 - pay))) c 0 + pay)))
        (f0 ++ [(c, cAmt)]) cs hgoodd hgc.tail hnodd hnc.2 hdisj2
        (by rw [sumValues_cons]
            show dRem + sumValues ds = sumValues cs
            rw [hdRem]
            linarith)
        (dkeys_nodup_dinsert (dkeys_nodup_dinsert hnwf _ _) _ _)
        (values_dinsert_cent (values_dinsert_cent hncent (isCent_round2 _)) (isCent_round2 _))
        hdneg2
        (Or.inl ⟨by
          intro u hu hmem
          rcases hkeys2 u hmem with h1 | h1 | h1
          · exact hfresh u (by rw [dkeys_cons]; exact List.mem_cons_of_mem _ hu) h1
          · exact hcd2 u hu h1
          · exact hccs u hu h1,
          by rw [hpos2, hpos1, hf0, hpayc],
          rfl⟩)
      rw [happ, hr]
      simp
    · obtain ⟨he1, he2⟩ := List.cons.injEq .. ▸ hceq
      obtain ⟨hec, heca⟩ := Prod.mk.injEq .. ▸ he1
      rw [← hec] at hget hf0
      rw [← he2] at hfresh
      have hget1 : dget (dinsert n d (round2 (dgetD n d 0 - pay))) c = some p := by
        rw [dget_dinsert_ne n hdc]
        exact hget
      have hf1 : posPart (dinsert n d (round2 (dgetD n d 0 - pay))) = f0 ++ [(c, p)] := by
        rw [hpos1]
        exact hf0
      obtain ⟨hpos2, hget2⟩ := posPart_cstep_partial (dkeys_nodup_dinsert hnwf _ _) hget1
        hppos2 hpc hpcent hppos hf1
      have happ := ih
        (dinsert (dinsert n d (round2 (dgetD n d 0 - pay))) c
          (round2 (dgetD (dinsert n d (round2 (dgetD n d 0 - pay))) c 0 + pay)))
        (f0 ++ [(c, p + cAmt)]) cs hgoodd hgc.tail hnodd hnc.2 hdisj2
        (by rw [sumValues_cons]
            show dRem + sumValues ds = sumValues cs
            rw [hdRem]
            linarith)
        (dkeys_nodup_dinsert (dkeys_nodup_dinsert hnwf _ _) _ _)
        (values_dinsert_cent (values_dinsert_cent hncent (isCent_round2 _)) (isCent_round2 _))
        hdneg2
        (Or.inl ⟨by
          intro u hu hmem
          rcases hkeys2 u hmem with h1 | h1 | h1
          · exact hfresh u hu h1
          · exact hcd2 u hu h1
          · exact hccs u hu h1,
          by rw [hpos2, hpayc],
          rfl⟩)
      rw [happ, hr, ← he2, ← hec, heca]
      simp
  | case6 d dAmt ds c cAmt cs pay dRem cRem hd hc =>
    exact absurd (greedy_advances dAmt cAmt) (not_or.mpr ⟨hd, hc⟩)

/-! ## Further dictionary and partition facts used by the claim theorems -/

theorem dget_derase_ne {K V : Type} [DecidableEq K] (m : List (K × V)) {k u : K}
    (h : u ≠ k) : dget (derase m k) u = dget m u := by
  induction m with
  | nil => rfl
  | cons kv rest ih =>
    by_cases he : kv.1 = k
    · rw [derase, if_pos he, dget, if_neg (show ¬ kv.1 = u by
        rw [he]; exact fun hh => h hh.symm)]
    · rw [derase, if_neg he, dget, dget]
      by_cases hu : kv.1 = u
      · rw [if_pos hu, if_pos hu]
      · rw [if_neg hu, if_neg hu, ih]

theorem dget_derase_self {K V : Type} [DecidableEq K] {m : List (K × V)}
    (hwf : (dkeys m).Nodup) (k : K) : dget (derase m k) k = none := by
  induction m with
  | nil => rfl
  | cons kv rest ih =>
    rw [dkeys_cons, List.nodup_cons] at hwf
    by_cases he : kv.1 = k
    · rw [derase, if_pos he]
      apply dget_eq_none
      rw [← he]
      exact hwf.1
    · rw [derase, if_neg he, dget, if_neg he, ih hwf.2]

theorem mem_dkeys_dinsert_of_mem {K V : Type} [DecidableEq K] {m : List (K × V)}
    {u : K} (h : u ∈ dkeys m) (k : K) (v : V) : u ∈ dkeys (dinsert m k v) := by
  by_cases hk : k ∈ dkeys m
  · rw [dkeys_dinsert_of_mem hk]
    exact h
  · rw [dkeys_dinsert_of_not_mem hk, List.mem_append]
    exact Or.inl h

theorem sumValues_perm {K : Type} {l1 l2 : List (K × ℚ)} (h : l1.Perm l2) :
    sumValues l1 = sumValues l2 := (h.map Prod.snd).sum_eq

theorem dkeys_perm {K V : Type} {l1 l2 : List (K × V)} (h : l1.Perm l2) :
    (dkeys l1).Perm (dkeys l2) := h.map Prod.fst

theorem good_negPart {m : List (String × ℚ)} (hm : ∀ x ∈ m, IsCent x.2) :
    Good (negPart m) := by
  intro x hx
  rw [negPart, List.mem_map] at hx
  obtain ⟨ub, hub, he⟩ := hx
  rw [List.mem_filter] at hub
  have hval := of_decide_eq_true hub.2
  refine ⟨?_, ?_⟩
  · rw [← he]
    exact (hm ub hub.1).neg
  · rw [← he]
    show eps < -ub.2
    linarith
theorem good_posPart {m : List (String × ℚ)} (hm : ∀ x ∈ m, IsCent x.2) :
    Good (posPart m) := by
  intro x hx
  rw [posPart, List.mem_filter] at hx
  exact ⟨hm x hx.1, of_decide_eq_true hx.2⟩

theorem filter_eps_of_all {l : Ledger} (h : ∀ kv ∈ l, eps < kv.2) :
    l.filter (fun kv => eps < kv.2) = l := by
  induction l with
  | nil => rfl
  | cons kv rest ih =>
    rw [List.filter_cons, if_pos (by exact decide_eq_true (h kv (List.mem_cons_self kv rest)))]
    rw [ih (fun x hx => h x (List.mem_cons_of_mem kv hx))]

theorem IsCent.pos_iff_gt_eps {v : ℚ} (h : IsCent v) : 0 < v ↔ eps < v := by
  constructor
  · intro h0
    have h1 : ¬ v ≤ 0 := not_le.mpr h0
    by_contra h2
    exact h1 (h.nonpos_of_le_eps (le_of_not_lt h2))
  · intro h0
    have : (0 : ℚ) < eps := by norm_num [eps]
    linarith

theorem sumValues_cent {K : Type} {m : List (K × ℚ)} (h : ∀ x ∈ m, IsCent x.2) :
    IsCent (sumValues m) := by
  induction m with
  | nil => exact isCent_zero
  | cons kv rest ih =>
    rw [sumValues_cons]
    exact (h kv (List.mem_cons_self kv rest)).add
      (ih (fun x hx => h x (List.mem_cons_of_mem kv hx)))

/-! ## Decomposition of `simplifyDebts` through the accumulator-free loop -/

/-- `simplify_debts` is the greedy output over the sorted balance
partitions, filtered at the epsilon threshold (unconditionally: the net
dict always has nodup keys). -/
theorem simplifyDebts_eq (L : Ledger) :
    simplifyDebts L =
      (greedyOut (sortByAmt (negPart (computeNet L)))
        (sortByAmt (posPart (computeNet L)))).filter (fun kv => eps < kv.2) := by
  have hnd : (dkeys (sortByAmt (negPart (computeNet L)))).Nodup :=
    (dkeys_perm (sortByAmt_perm _)).nodup_iff.mpr
      ((dkeys_negPart_sublist _).nodup (computeNet_wf L))
  have hnc : (dkeys (sortByAmt (posPart (computeNet L)))).Nodup :=
    (dkeys_perm (sortByAmt_perm _)).nodup_iff.mpr
      ((dkeys_posPart_sublist _).nodup (computeNet_wf L))
  show (greedyLoop (sortByAmt (negPart (computeNet L)))
      (sortByAmt (posPart (computeNet L))) []).filter (fun kv => eps < kv.2) = _
  rw [greedyLoop_acc _ _ _ hnd hnc (fun kv hkv => absurd hkv (List.not_mem_nil kv)),
    List.nil_append]

theorem simplify_good_parts {L : Ledger} (hc : ∀ kv ∈ L, IsCent kv.2) :
    Good (sortByAmt (negPart (computeNet L))) ∧
    Good (sortByAmt (posPart (computeNet L))) :=
  ⟨Good.perm (good_negPart (computeNet_cent L)) (sortByAmt_perm _),
   Good.perm (good_posPart (computeNet_cent L)) (sortByAmt_perm _)⟩

/-- On an all-cent ledger the final epsilon filter is the identity. -/
theorem simplifyDebts_eq_greedyOut {L : Ledger} (hc : ∀ kv ∈ L, IsCent kv.2) :
    simplifyDebts L =
      greedyOut (sortByAmt (negPart (computeNet L)))
        (sortByAmt (posPart (computeNet L))) := by
  rw [simplifyDebts_eq]
  apply filter_eps_of_all
  intro kv hkv
  exact (greedyOut_good _ _ (simplify_good_parts hc).1 (simplify_good_parts hc).2 kv hkv).2

theorem simplify_sums {L : Ledger} (hc : ∀ kv ∈ L, IsCent kv.2) :
    sumValues (sortByAmt (negPart (computeNet L))) =
      sumValues (sortByAmt (posPart (computeNet L))) := by
  rw [sumValues_perm (sortByAmt_perm _), sumValues_perm (sortByAmt_perm _)]
  have h := sum_negPart_sub_posPart (computeNet_cent L)
  rw [computeNet_sum_zero hc] at h
  linarith

theorem simplify_disjoint (L : Ledger) :
    ∀ u ∈ dkeys (sortByAmt (negPart (computeNet L))),
      u ∉ dkeys (sortByAmt (posPart (computeNet L))) := by
  intro u hu hmem
  exact negPart_posPart_disjoint (computeNet_wf L)
    ((dkeys_perm (sortByAmt_perm _)).mem_iff.mp hu)
    ((dkeys_perm (sortByAmt_perm _)).mem_iff.mp hmem)

theorem simplify_nodup_parts (L : Ledger) :
    (dkeys (sortByAmt (negPart (computeNet L)))).Nodup ∧
    (dkeys (sortByAmt (posPart (computeNet L)))).Nodup :=
  ⟨(dkeys_perm (sortByAmt_perm _)).nodup_iff.mpr
      ((dkeys_negPart_sublist _).nodup (computeNet_wf L)),
   (dkeys_perm (sortByAmt_perm _)).nodup_iff.mpr
      ((dkeys_posPart_sublist _).nodup (computeNet_wf L))⟩

/-- Conservation: the collapsed ledger's entries sum to the positive side
of the net balance partition. -/
theorem simplify_conserves {L : Ledger} (hc : ∀ kv ∈ L, IsCent kv.2) :
    sumValues (simplifyDebts L) = sumValues (posPart (computeNet L)) := by
  rw [simplifyDebts_eq_greedyOut hc,
    greedyOut_sum _ _ (simplify_good_parts hc).1 (simplify_good_parts hc).2
      (simplify_sums hc)]
  exact sumValues_perm (sortByAmt_perm _)

/-- The net balances of a collapsed all-cent ledger partition back into
exactly the worklists the collapse was run on. -/
theorem simplify_net_parts {L : Ledger} (hc : ∀ kv ∈ L, IsCent kv.2) :
    negPart (computeNet (simplifyDebts L)) = sortByAmt (negPart (computeNet L)) ∧
    posPart (computeNet (simplifyDebts L)) = sortByAmt (posPart (computeNet L)) := by
  have hgood := simplify_good_parts hc
  have hnodup := simplify_nodup_parts L
  have hdisj := simplify_disjoint L
  have hsum := simplify_sums hc
  have hS := simplifyDebts_eq_greedyOut hc
  constructor
  · rw [hS, computeNet_eq_netFold]
    have h := greedy_negPart (sortByAmt (negPart (computeNet L)))
      (sortByAmt (posPart (computeNet L))) [] []
      (sortByAmt (negPart (computeNet L))) hgood.1 hgood.2 hnodup.1 hnodup.2 hdisj hsum
      List.nodup_nil (fun x hx => absurd hx (List.not_mem_nil x))
      (fun u hu v hv => by simp [dget] at hv)
      (Or.inl ⟨fun u hu hmem => absurd hmem (List.not_mem_nil u), rfl, rfl⟩)
    rw [h, List.nil_append]
  · rw [hS, computeNet_eq_netFold]
    have h := greedy_posPart (sortByAmt (negPart (computeNet L)))
      (sortByAmt (posPart (computeNet L))) [] []
      (sortByAmt (posPart (computeNet L))) hgood.1 hgood.2 hnodup.1 hnodup.2 hdisj hsum
      List.nodup_nil (fun x hx => absurd hx (List.not_mem_nil x))
      (fun u hu v hv => by simp [dget] at hv)
      (Or.inl ⟨fun u hu hmem => absurd hmem (List.not_mem_nil u), rfl, rfl⟩)
    rw [h, List.nil_append]

/-- Idempotence of the collapse on all-cent ledgers. -/
theorem simplify_idem {L : Ledger} (hc : ∀ kv ∈ L, IsCent kv.2) :
    simplifyDebts (simplifyDebts L) = simplifyDebts L := by
  have hgood := simplify_good_parts hc
  have hS := simplifyDebts_eq_greedyOut hc
  have hcS : ∀ kv ∈ simplifyDebts L, IsCent kv.2 := by
    intro kv hkv
    rw [hS] at hkv
    exact (greedyOut_good _ _ hgood.1 hgood.2 kv hkv).1
  rw [simplifyDebts_eq_greedyOut hcS, (simplify_net_parts hc).1, (simplify_net_parts hc).2,
    sortByAmt_eq_self (sortByAmt_sorted _), sortByAmt_eq_self (sortByAmt_sorted _), hS]

/-- The canonical-form invariant of a collapsed ledger: no self-debt,
every amount above the epsilon threshold, and no unordered pair stored
in both directions. -/
def CanonicalInv (S : Ledger) : Prop :=
  (∀ kv ∈ S, kv.1.1 ≠ kv.1.2 ∧ eps < kv.2) ∧
  (∀ a b x y, ((a, b), x) ∈ S → ((b, a), y) ∈ S → False)

theorem simplify_canonical (L : Ledger) : CanonicalInv (simplifyDebts L) := by
  have hdisj := simplify_disjoint L
  rw [simplifyDebts_eq]
  constructor
  · intro kv hkv
    rw [List.mem_filter] at hkv
    have hkeys := greedyOut_keys _ _ kv hkv.1
    refine ⟨?_, of_decide_eq_true hkv.2⟩
    intro he
    exact hdisj kv.1.1 hkeys.1 (by rw [he]; exact hkeys.2)
  · intro a b x y h1 h2
    rw [List.mem_filter] at h1 h2
    have k1 := greedyOut_keys _ _ _ h1.1
    have k2 := greedyOut_keys _ _ _ h2.1
    exact hdisj a k1.1 k2.2

theorem greedyOut_nil_left (creditors : List (String × ℚ)) :
    greedyOut [] creditors = [] := by
  rw [greedyOut]

theorem greedyOut_nil_right (d : String × ℚ) (ds : List (String × ℚ)) :
    greedyOut (d :: ds) [] = [] := by
  rw [greedyOut]

/-- Each loop iteration emits at most one entry and the final iteration
consumes both worklist heads, so on nonempty worklists the output stays
one short of the total worklist size. -/
theorem greedyOut_length_bound (debtors creditors : List (String × ℚ)) :
    debtors ≠ [] → creditors ≠ [] →
    (greedyOut debtors creditors).length + 1 ≤ debtors.length + creditors.length := by
  induction debtors, creditors using greedyOut.induct with
  | case1 creditors =>
    intro h _
    exact absurd rfl h
  | case2 d ds =>
    intro _ h
    exact absurd rfl h
  | case3 d dAmt ds c cAmt cs pay dRem cRem hd hc ih =>
    intro _ _
    rw [greedyOut]
    simp only [dif_pos hd, if_pos hc, List.length_append, List.length_cons]
    have hrec : (greedyOut ds cs).length + 1 ≤ ds.length + cs.length ∨
        (greedyOut ds cs).length = 0 := by
      by_cases hds : ds = []
      · subst hds
        exact Or.inr (by rw [greedyOut_nil_left]; rfl)
      · by_cases hcs : cs = []
        · subst hcs
          cases ds with
          | nil => exact Or.inr (by rw [greedyOut_nil_left]; rfl)
          | cons x xs => exact Or.inr (by rw [greedyOut_nil_right]; rfl)
        · exact Or.inl (ih hds hcs)
    have hent : (if 0 < round2 (min dAmt cAmt) then [((d, c), round2 (min dAmt cAmt))] else []).length ≤ 1 := by
      by_cases hp : 0 < pay
      · rw [if_pos hp]
        exact Nat.le_refl 1
      · rw [if_neg hp]
        exact Nat.zero_le 1
    rcases hrec with h1 | h1 <;> omega
  | case4 d dAmt ds c cAmt cs pay dRem cRem hd hc ih =>
    intro _ _
    rw [greedyOut]
    simp only [dif_pos hd, if_neg hc, List.length_append, List.length_cons]
    have hrec : (greedyOut ds ((c, round2 (cAmt - round2 (min dAmt cAmt))) :: cs)).length + 1 ≤
        ds.length + (cs.length + 1) ∨
        (greedyOut ds ((c, round2 (cAmt - round2 (min dAmt cAmt))) :: cs)).length = 0 := by
      by_cases hds : ds = []
      · subst hds
        exact Or.inr (by rw [greedyOut_nil_left]; rfl)
      · exact Or.inl (by
          have := ih hds (List.cons_ne_nil _ _)
          simpa using this)
    have hent : (if 0 < round2 (min dAmt cAmt) then [((d, c), round2 (min dAmt cAmt))] else []).length ≤ 1 := by
      by_cases hp : 0 < pay
      · rw [if_pos hp]
        exact Nat.le_refl 1
      · rw [if_neg hp]
        exact Nat.zero_le 1
    rcases hrec with h1 | h1 <;> omega
  | case5 d dAmt ds c cAmt cs pay dRem cRem hd hc ih =>
    intro _ _
    rw [greedyOut]
    simp only [dif_neg hd, dif_pos hc, List.length_append, List.length_cons]
    have hrec : (greedyOut ((d, round2 (dAmt - round2 (min dAmt cAmt))) :: ds) cs).length + 1 ≤
        (ds.length + 1) + cs.length ∨
        (greedyOut ((d, round2 (dAmt - round2 (min dAmt cAmt))) :: ds) cs).length = 0 := by
      by_cases hcs : cs = []
      · subst hcs
        exact Or.inr (by rw [greedyOut_nil_right]; rfl)
      · exact Or.inl (by
          have := ih (List.cons_ne_nil _ _) hcs
          simpa using this)
    have hent : (if 0 < round2 (min dAmt cAmt) then [((d, c), round2 (min dAmt cAmt))] else []).length ≤ 1 := by
      by_cases hp : 0 < pay
      · rw [if_pos hp]
        exact Nat.le_refl 1
      · rw [if_neg hp]
        exact Nat.zero_le 1
    rcases hrec with h1 | h1 <;> omega
  | case6 d dAmt ds c cAmt cs pay dRem cRem hd hc =>
    exact absurd (greedy_advances dAmt cAmt) (not_or.mpr ⟨hd, hc⟩)

theorem simplifyDebts_nil : simplifyDebts ([] : Ledger) = [] := by
  rw [simplifyDebts_eq, show computeNet ([] : Ledger) = [] from rfl, negPart_nil,
    posPart_nil, show sortByAmt ([] : List (String × ℚ)) = [] from rfl,
    greedyOut_nil_left]
  rfl

/-- A failed split computation leaves the ledger untouched. -/
theorem updateDebtsRun_of_error {e : Expense} {m : String}
    (h : calculateSplits e = .error m) (debts : Ledger) :
    updateDebtsRun debts e = (debts, some m) := by
  simp only [updateDebtsRun, h]

theorem updateDebtsRun_of_ok {e : Expense} {splits : List (User × ℚ)}
    (h : calculateSplits e = .ok splits) (debts : Ledger) :
    updateDebtsRun debts e =
      (simplifyDebts (splits.foldl (fun d ps =>
        if ps.1.email = e.payer.email then d else addDebt d ps.1 e.payer ps.2) debts),
       none) := by
  simp only [updateDebtsRun, h]

theorem updateDebtsRun_none_simplify {debts : Ledger} {e : Expense}
    (h : (updateDebtsRun debts e).2 = none) :
    ∃ L0, (updateDebtsRun debts e).1 = simplifyDebts L0 := by
  rcases hs : calculateSplits e with m | splits
  · rw [updateDebtsRun_of_error hs] at h
    exact absurd h (by simp)
  · exact ⟨_, by rw [updateDebtsRun_of_ok hs]⟩

theorem insertByKey_length (x : (String × String) × ℚ) (l : Ledger) :
    (insertByKey x l).length = l.length + 1 := by
  induction l with
  | nil => rfl
  | cons y ys ih =>
    rw [insertByKey]
    by_cases h : keyLe x y
    · rw [if_pos h]
      rfl
    · rw [if_neg h, List.length_cons, ih, List.length_cons]

theorem sortByKey_length (l : Ledger) : (sortByKey l).length = l.length := by
  induction l with
  | nil => rfl
  | cons y ys ih =>
    show (insertByKey y (sortByKey ys)).length = ys.length + 1
    rw [insertByKey_length, ih]

/-- The summary prints one line per stored debt when any debt remains. -/
theorem summaryLines_length {debts : Ledger} (h : debts ≠ [])
    (u : List (String × User)) :
    (summaryLines debts u).length = debts.length := by
  have hlen : ∀ l : List String, l.length = debts.length →
      (if l.isEmpty then ["No outstanding debts."] else l).length = debts.length := by
    intro l hl
    have hne : ¬ l.isEmpty = true := by
      intro hE
      rw [List.isEmpty_iff] at hE
      rw [hE] at hl
      exact h (List.length_eq_zero.mp hl.symm)
    rw [if_neg hne]
    exact hl
  exact hlen _ (by rw [List.length_map, sortByKey_length])

/-! ## Equal-split reconciliation -/

theorem foldl_dinsert_val {base : ℚ} :
    ∀ (ps : List User) (m : List (User × ℚ)), (∀ x ∈ m, x.2 = base) →
    ∀ x ∈ ps.foldl (fun m p => dinsert m p base) m, x.2 = base := by
  intro ps
  induction ps with
  | nil =>
    intro m hm x hx
    exact hm x hx
  | cons p rest ih =>
    intro m hm x hx
    rw [List.foldl_cons] at hx
    refine ih _ ?_ x hx
    intro y hy
    rcases mem_dinsert hy with h1 | h1
    · exact hm y h1
    · rw [h1]

theorem foldl_dinsert_mem {base : ℚ} :
    ∀ (ps : List User) (m : List (User × ℚ)) (u : User), u ∈ dkeys m ∨ u ∈ ps →
    u ∈ dkeys (ps.foldl (fun m p => dinsert m p base) m) := by
  intro ps
  induction ps with
  | nil =>
    intro m u h
    rcases h with h | h
    · exact h
    · exact absurd h (List.not_mem_nil u)
  | cons p rest ih =>
    intro m u h
    rw [List.foldl_cons]
    apply ih
    rcases h with h | h
    · exact Or.inl (mem_dkeys_dinsert_of_mem h p base)
    · rcases List.mem_cons.mp h with he | hmem
      · subst he
        exact Or.inl (dget_mem_keys (dget_dinsert_self m u base))
      · exact Or.inr hmem

/-- The arithmetic heart of the equal split: starting from any all-cent
share dict containing the first participant, adding the rounding
remainder to that participant reconciles the total. -/
theorem equal_sum_master {S : List (User × ℚ)} {p0 : User} (amount : ℚ)
    (hcent : ∀ x ∈ S, IsCent x.2) (hmem : p0 ∈ dkeys S) :
    round2 (sumValues (dinsert S p0
      (round2 (dgetD S p0 0 + round2 (amount - round2 (sumValues S)))))) = round2 amount ∧
    (round2 (amount - round2 (sumValues S)) = 0 →
      round2 (sumValues S) = round2 amount) := by
  have hsc : IsCent (sumValues S) := sumValues_cent hcent
  have hd : round2 (sumValues S) = sumValues S := round2_of_isCent hsc
  have hrem : round2 (amount - round2 (sumValues S)) = round2 amount - sumValues S := by
    rw [hd, round2_sub_isCent hsc]
  obtain ⟨w, hw⟩ := dget_isSome_of_mem hmem
  have hwc : IsCent w := hcent (p0, w) (dget_mem hw)
  have hgetD : dgetD S p0 0 = w := by rw [dgetD, hw, Option.getD_some]
  constructor
  · rw [sumValues_dinsert hw, hgetD, hrem,
      round2_of_isCent (hwc.add ((isCent_round2 amount).sub hsc))]
    have he : sumValues S - w + (w + (round2 amount - sumValues S)) = round2 amount := by
      ring
    rw [he, round2_round2]
  · intro h0
    rw [hrem] at h0
    rw [hd]
    linarith

theorem equal_split_ok (amount : ℚ) (p0 : User) (rest : List User) :
    ∃ shares, equalSplitShares amount (p0 :: rest) = Except.ok shares ∧
      round2 (sumValues shares) = round2 amount := by
  have hcent : ∀ x ∈ (p0 :: rest).foldl
      (fun m p => dinsert m p (round2 (amount / (((p0 :: rest).length : ℕ) : ℚ)))) [],
      IsCent x.2 := by
    intro x hx
    rw [foldl_dinsert_val _ _ (fun y hy => absurd hy (List.not_mem_nil y)) x hx]
    exact isCent_round2 _
  have hmem : p0 ∈ dkeys ((p0 :: rest).foldl
      (fun m p => dinsert m p (round2 (amount / (((p0 :: rest).length : ℕ) : ℚ)))) []) :=
    foldl_dinsert_mem _ _ p0 (Or.inr (List.mem_cons_self p0 rest))
  simp only [equalSplitShares]
  split
  · exact ⟨_, rfl, (equal_sum_master amount hcent hmem).1⟩
  · rename_i h0
    exact ⟨_, rfl, (equal_sum_master amount hcent hmem).2 (not_not.mp h0)⟩

/-! ## Concrete scenario fixtures -/

def uA : User := ⟨"A", "a"⟩

def uB : User := ⟨"B", "b"⟩

def uC : User := ⟨"C", "c"⟩

/-- The spec's scenario expense: 1000.00 paid by A, split equally among
A, B, C. -/
def expC6 : Expense := ⟨"Trip", 1000, uA, [uA, uB, uC], "equal", none⟩

/-- An expense whose split configuration is invalid: the equal policy
with an empty participant list. -/
def expBad : Expense := ⟨"Bad", 10, uA, [], "equal", none⟩

def grpW : Group := ⟨"G", [uA, uB, uC], [], []⟩

theorem calculateSplits_expBad :
    calculateSplits expBad = Except.error "No participants to split among." := by
  have hkey : pyLower (pyStrip ("equal" : String)) = "equal" := by decide
  simp only [calculateSplits, expBad, hkey, if_pos, equalSplitShares]

theorem calculateSplits_expC6 :
    calculateSplits expC6 =
      Except.ok [(uA, 33334/100), (uB, 33333/100), (uC, 33333/100)] := by
  have hab : ¬(("a" : String) = "b") := by decide
  have hac : ¬(("a" : String) = "c") := by decide
  have hba : ¬(("b" : String) = "a") := by decide
  have hbc : ¬(("b" : String) = "c") := by decide
  have hca : ¬(("c" : String) = "a") := by decide
  have hcb : ¬(("c" : String) = "b") := by decide
  have hAB : ¬(("A" : String) = "B") := by decide
  have hAC : ¬(("A" : String) = "C") := by decide
  have hBA : ¬(("B" : String) = "A") := by decide
  have hBC : ¬(("B" : String) = "C") := by decide
  have hCA : ¬(("C" : String) = "A") := by decide
  have hCB : ¬(("C" : String) = "B") := by decide
  have hkey : pyLower (pyStrip ("equal" : String)) = "equal" := by decide
  norm_num [calculateSplits, hkey, expC6, uA, uB, uC, equalSplitShares,
    List.foldl_cons, List.foldl_nil, dinsert, dget, dgetD, sumValues,
    round2_eq, round_eq, User.mk.injEq,
    hab, hac, hba, hbc, hca, hcb, hAB, hAC, hBA, hBC, hCA, hCB]

theorem updateDebtsRun_expC6 :
    updateDebtsRun [] expC6 =
      ([(("b", "a"), 33333/100), (("c", "a"), 33333/100)], none) := by
  have hab : ¬(("a" : String) = "b") := by decide
  have hac : ¬(("a" : String) = "c") := by decide
  have hba : ¬(("b" : String) = "a") := by decide
  have hbc : ¬(("b" : String) = "c") := by decide
  have hca : ¬(("c" : String) = "a") := by decide
  have hcb : ¬(("c" : String) = "b") := by decide
  rw [updateDebtsRun_of_ok calculateSplits_expC6]
  norm_num [addDebt, uA, uB, uC, expC6, List.foldl_cons, List.foldl_nil,
    dinsert, dget, dgetD, derase, eps, simplifyDebts, computeNet, netStep,
    sortByAmt, insertByAmt, greedyLoop_eq_run, greedyRun, payOut, sumValues,
    round2_eq, round_eq, Prod.mk.injEq, negPart, posPart,
    hab, hac, hba, hbc, hca, hcb]

theorem addExpense_expC6 :
    addExpense grpW expC6 =
      (⟨"G", [uA, uB, uC], [expC6],
        [(("b", "a"), 33333/100), (("c", "a"), 33333/100)]⟩, none) := by
  have hmem : ((expC6.participants ++ [expC6.payer]).all
      (fun p => p.email ∈ (grpW.members.map User.email))) = true := by decide
  simp only [addExpense, hmem, eq_self_iff_true, if_true]
  simp only [grpW, updateDebtsRun_expC6, List.nil_append]

theorem addExpense_expBad :
    addExpense grpW expBad =
      (⟨"G", [uA, uB, uC], [expBad], []⟩, some "No participants to split among.") := by
  have hmem : ((expBad.participants ++ [expBad.payer]).all
      (fun p => p.email ∈ (grpW.members.map User.email))) = true := by decide
  simp only [addExpense, hmem, eq_self_iff_true, if_true]
  simp only [grpW, updateDebtsRun_of_error calculateSplits_expBad, List.nil_append]

/-- The spec's settle-up scenario: 20.00 paid from A to B against an
existing B→A debt of 30.00 leaves a B→A debt of 50.00. -/
theorem settleUpRaw_scenario :
    settleUpRaw [(("b", "a"), 30)] uA uB 20 = [(("b", "a"), 50)] := by
  have hab : ¬(("a" : String) = "b") := by decide
  have hba : ¬(("b" : String) = "a") := by decide
  norm_num [settleUpRaw, uA, uB, dget, dgetD, dinsert, round2_eq, round_eq,
    Prod.mk.injEq, hab, hba]

/-- A successful `add_expense` stores a collapsed ledger. -/
theorem addExpense_none_simplify {g : Group} {e : Expense}
    (h : (addExpense g e).2 = none) :
    ∃ L0, (addExpense g e).1.debts = simplifyDebts L0 := by
  by_cases hm : ((e.participants ++ [e.payer]).all
      (fun p => p.email ∈ (g.members.map User.email))) = true
  · simp only [addExpense, hm, eq_self_iff_true, if_true] at h ⊢
    rcases hu : updateDebtsRun g.debts e with ⟨d, o⟩
    rw [hu] at h
    cases o with
    | some m => exact Option.noConfusion h
    | none =>
      obtain ⟨L0, hL0⟩ := updateDebtsRun_none_simplify
        (show (updateDebtsRun g.debts e).2 = none by rw [hu])
      rw [hu] at hL0
      exact ⟨L0, hL0⟩
  · simp only [addExpense, if_neg hm] at h
    exact absurd h (by simp)

/-! ## Claim theorems -/

/-- C1: for every positive amount and non-empty participant list the Equal
policy succeeds and its shares, rounded to 2 decimals, sum to the amount
rounded to 2 decimals (the rounding remainder goes entirely to the first
participant); an empty participant list is a validation failure. -/
theorem C1_equal_split_reconciles (amount : ℚ) (participants : List User)
    (hpos : 0 < amount) (hne : participants ≠ []) :
    (∃ shares, equalSplitShares amount participants = Except.ok shares ∧
      round2 (sumValues shares) = round2 amount) ∧
    equalSplitShares amount [] = Except.error "No participants to split among." := by
  refine ⟨?_, rfl⟩
  cases participants with
  | nil => exact absurd rfl hne
  | cons p0 rest => exact equal_split_ok amount p0 rest

theorem C1_equal_split_reconciles_witness :
    (∃ shares, equalSplitShares 100 [uA, uB, uC] = Except.ok shares ∧
      round2 (sumValues shares) = round2 100) ∧
    equalSplitShares 100 [] = Except.error "No participants to split among." :=
  C1_equal_split_reconciles 100 [uA, uB, uC] (by norm_num) (by simp)

/-- C2: the netting collapse is idempotent on every ledger whose amounts
are whole cents: `simplifyDebts (simplifyDebts L) = simplifyDebts L`. -/
theorem C2_netting_idempotent (L : Ledger) (hc : ∀ kv ∈ L, IsCent kv.2) :
    simplifyDebts (simplifyDebts L) = simplifyDebts L :=
  simplify_idem hc

theorem C2_netting_idempotent_witness :
    simplifyDebts (simplifyDebts [(("b", "a"), (30 : ℚ))]) =
      simplifyDebts [(("b", "a"), (30 : ℚ))] :=
  C2_netting_idempotent _ (by
    intro kv hkv
    rw [List.mem_singleton] at hkv
    rw [hkv]
    exact ⟨3000, by norm_num⟩)

/-- C3: the netting collapse conserves total net imbalance on all-cent
ledgers: the sum of the positive net balances before the collapse equals
the sum of all entry amounts after the collapse. -/
theorem C3_netting_conserves (L : Ledger) (hc : ∀ kv ∈ L, IsCent kv.2) :
    sumValues ((computeNet L).filter (fun ub => 0 < ub.2)) =
      sumValues (simplifyDebts L) := by
  have hpos : (computeNet L).filter (fun ub => 0 < ub.2) = posPart (computeNet L) :=
    List.filter_congr
      (fun x hx => decide_eq_decide.mpr ((computeNet_cent L x hx).pos_iff_gt_eps))
  rw [hpos]
  exact (simplify_conserves hc).symm

theorem C3_netting_conserves_witness :
    sumValues ((computeNet [(("b", "a"), (30 : ℚ))]).filter (fun ub => 0 < ub.2)) =
      sumValues (simplifyDebts [(("b", "a"), (30 : ℚ))]) :=
  C3_netting_conserves _ (by
    intro kv hkv
    rw [List.mem_singleton] at hkv
    rw [hkv]
    exact ⟨3000, by norm_num⟩)

/-- C4: after every mutation-then-collapse cycle (collapse alone, settle
up, a successful expense application, or a successful group add-expense)
the stored ledger is canonical: no self-debt, every amount above the
0.009 epsilon, and no unordered pair stored in both directions. -/
theorem C4_canonical_after_ops (L L2 : Ledger) (payer receiver : User) (amount : ℚ)
    (g : Group) (e e2 : Expense)
    (hup : (updateDebtsRun L2 e).2 = none) (hadd : (addExpense g e2).2 = none) :
    CanonicalInv (simplifyDebts L) ∧
    CanonicalInv (settleUp L payer receiver amount) ∧
    CanonicalInv (updateDebtsRun L2 e).1 ∧
    CanonicalInv (addExpense g e2).1.debts := by
  refine ⟨simplify_canonical L, simplify_canonical (settleUpRaw L payer receiver amount),
    ?_, ?_⟩
  · obtain ⟨L0, hL0⟩ := updateDebtsRun_none_simplify hup
    rw [hL0]
    exact simplify_canonical L0
  · obtain ⟨L0, hL0⟩ := addExpense_none_simplify hadd
    rw [hL0]
    exact simplify_canonical L0

theorem C4_canonical_after_ops_witness :
    CanonicalInv (simplifyDebts [(("b", "a"), (30 : ℚ))]) ∧
    CanonicalInv (settleUp [(("b", "a"), (30 : ℚ))] uA uB 20) ∧
    CanonicalInv (updateDebtsRun [] expC6).1 ∧
    CanonicalInv (addExpense grpW expC6).1.debts :=
  C4_canonical_after_ops [(("b", "a"), (30 : ℚ))] [] uA uB 20 grpW expC6 expC6
    (by rw [updateDebtsRun_expC6]) (by rw [addExpense_expC6])

/-- C5: `settle_up` proceeds by three exhaustive cases before collapsing:
subtract from an existing directed entry (dropping it at or below
epsilon, so a debt settled to zero is removed), add to the reverse entry
when only it exists (the 30.00 plus 20.00 gives 50.00 scenario), or
create the reverse entry fresh. -/
theorem C5_settle_up_cases (debts : Ledger) (payer receiver : User) (amount : ℚ)
    (hwf : (dkeys debts).Nodup) (hpos : 0 < amount) :
    (∀ v, dget debts (payer.email, receiver.email) = some v →
      round2 (v - amount) ≤ eps →
      dget (settleUpRaw debts payer receiver amount)
        (payer.email, receiver.email) = none) ∧
    (∀ v, dget debts (payer.email, receiver.email) = some v →
      eps < round2 (v - amount) →
      dget (settleUpRaw debts payer receiver amount)
        (payer.email, receiver.email) = some (round2 (v - amount))) ∧
    (dget debts (payer.email, receiver.email) = none →
      ∀ v, dget debts (receiver.email, payer.email) = some v →
      settleUpRaw debts payer receiver amount =
        dinsert debts (receiver.email, payer.email) (round2 (v + amount))) ∧
    (dget debts (payer.email, receiver.email) = none →
      dget debts (receiver.email, payer.email) = none →
      settleUpRaw debts payer receiver amount =
        dinsert debts (receiver.email, payer.email) (round2 amount)) ∧
    settleUp debts payer receiver amount =
      simplifyDebts (settleUpRaw debts payer receiver amount) ∧
    settleUpRaw [(("b", "a"), 30)] uA uB 20 = [(("b", "a"), 50)] := by
  refine ⟨?_, ?_, ?_, ?_, rfl, settleUpRaw_scenario⟩
  · intro v hget hle
    simp only [settleUpRaw, hget]
    have hD : dgetD (dinsert debts (payer.email, receiver.email) (round2 (v - amount)))
        (payer.email, receiver.email) 0 = round2 (v - amount) := by
      rw [dgetD, dget_dinsert_self, Option.getD_some]
    rw [hD, if_pos hle, derase_dinsert]
    exact dget_derase_self hwf _
  · intro v hget hgt
    simp only [settleUpRaw, hget]
    have hD : dgetD (dinsert debts (payer.email, receiver.email) (round2 (v - amount)))
        (payer.email, receiver.email) 0 = round2 (v - amount) := by
      rw [dgetD, dget_dinsert_self, Option.getD_some]
    rw [hD, if_neg (not_le.mpr hgt)]
    exact dget_dinsert_self _ _ _
  · intro hnone v hopp
    simp only [settleUpRaw, hnone, hopp]
  · intro hnone hopp
    simp only [settleUpRaw, hnone, hopp]

theorem C5_settle_up_cases_witness :
    ((∀ v, dget [(("b", "a"), (30 : ℚ))] (uA.email, uB.email) = some v →
      round2 (v - 20) ≤ eps →
      dget (settleUpRaw [(("b", "a"), (30 : ℚ))] uA uB 20) (uA.email, uB.email) = none) ∧
    (∀ v, dget [(("b", "a"), (30 : ℚ))] (uA.email, uB.email) = some v →
      eps < round2 (v - 20) →
      dget (settleUpRaw [(("b", "a"), (30 : ℚ))] uA uB 20)
        (uA.email, uB.email) = some (round2 (v - 20))) ∧
    (dget [(("b", "a"), (30 : ℚ))] (uA.email, uB.email) = none →
      ∀ v, dget [(("b", "a"), (30 : ℚ))] (uB.email, uA.email) = some v →
      settleUpRaw [(("b", "a"), (30 : ℚ))] uA uB 20 =
        dinsert [(("b", "a"), (30 : ℚ))] (uB.email, uA.email) (round2 (v + 20))) ∧
    (dget [(("b", "a"), (30 : ℚ))] (uA.email, uB.email) = none →
      dget [(("b", "a"), (30 : ℚ))] (uB.email, uA.email) = none →
      settleUpRaw [(("b", "a"), (30 : ℚ))] uA uB 20 =
        dinsert [(("b", "a"), (30 : ℚ))] (uB.email, uA.email) (round2 20)) ∧
    settleUp [(("b", "a"), (30 : ℚ))] uA uB 20 =
      simplifyDebts (settleUpRaw [(("b", "a"), (30 : ℚ))] uA uB 20) ∧
    settleUpRaw [(("b", "a"), 30)] uA uB 20 = [(("b", "a"), 50)]) :=
  C5_settle_up_cases [(("b", "a"), (30 : ℚ))] uA uB 20 (by decide) (by norm_num)

/-- C6 (corrected): applying the 1000.00 equal-split expense paid by A to
an empty ledger yields, after collapse, the entries B→A 333.33 and
C→A 333.33 — not C→A 333.34 as the spec's scenario states, because the
0.01 rounding remainder is absorbed by the first participant A, who is
the payer and therefore never owes — and the summary reports two lines. -/
theorem C6_equal_split_scenario :
    calculateSplits expC6 =
      Except.ok [(uA, 33334/100), (uB, 33333/100), (uC, 33333/100)] ∧
    updateDebtsRun [] expC6 =
      ([(("b", "a"), 33333/100), (("c", "a"), 33333/100)], none) ∧
    (summaryLines (updateDebtsRun [] expC6).1 (emailToUser [uA, uB, uC])).length = 2 := by
  refine ⟨calculateSplits_expC6, updateDebtsRun_expC6, ?_⟩
  rw [updateDebtsRun_expC6]
  show (summaryLines [(("b", "a"), 33333/100), (("c", "a"), 33333/100)]
    (emailToUser [uA, uB, uC])).length = 2
  rw [summaryLines_length (List.cons_ne_nil _ _)]
  rfl

theorem C6_scenario_counterexample :
    ¬ (dget (updateDebtsRun [] expC6).1 ("c", "a") = some (33334/100 : ℚ)) := by
  rw [updateDebtsRun_expC6]
  show ¬ (dget [(("b", "a"), (33333 : ℚ)/100), (("c", "a"), 33333/100)] ("c", "a") =
    some (33334/100 : ℚ))
  have hbc : ¬(("b" : String) = "c") := by decide
  norm_num [dget, Prod.mk.injEq, hbc]

/-- C7 (corrected): one collapse produces at most
(number of net debtors) + (number of net creditors) − 1 entries whenever
at least one net debtor or creditor exists; on the empty ledger the
spec's bound reads 0 ≤ −1 and is false. -/
theorem C7_entry_count_bound (L : Ledger)
    (h : (computeNet L).filter (fun ub => ub.2 < -eps) ≠ [] ∨
         (computeNet L).filter (fun ub => eps < ub.2) ≠ []) :
    ((simplifyDebts L).length : ℤ) ≤
      (((computeNet L).filter (fun ub => ub.2 < -eps)).length : ℤ) +
      (((computeNet L).filter (fun ub => eps < ub.2)).length : ℤ) - 1 := by
  have hDlen : (sortByAmt (negPart (computeNet L))).length =
      ((computeNet L).filter (fun ub => ub.2 < -eps)).length := by
    rw [(sortByAmt_perm _).length_eq]
    simp only [negPart, List.length_map]
  have hClen : (sortByAmt (posPart (computeNet L))).length =
      ((computeNet L).filter (fun ub => eps < ub.2)).length := by
    rw [(sortByAmt_perm _).length_eq]
    rfl
  have hflen : (simplifyDebts L).length ≤
      (greedyOut (sortByAmt (negPart (computeNet L)))
        (sortByAmt (posPart (computeNet L)))).length := by
    rw [simplifyDebts_eq]
    exact List.length_filter_le _ _
  by_cases hD0 : sortByAmt (negPart (computeNet L)) = []
  · have hg : greedyOut (sortByAmt (negPart (computeNet L)))
        (sortByAmt (posPart (computeNet L))) = [] := by
      rw [hD0, greedyOut_nil_left]
    rw [hg, List.length_nil] at hflen
    have ha0 : ((computeNet L).filter (fun ub => ub.2 < -eps)).length = 0 := by
      rw [← hDlen, hD0]
      rfl
    have hb1 : 1 ≤ ((computeNet L).filter (fun ub => eps < ub.2)).length := by
      rcases h with h | h
      · exact absurd (List.length_eq_zero.mp ha0) h
      · exact List.length_pos.mpr h
    omega
  · by_cases hC0 : sortByAmt (posPart (computeNet L)) = []
    · have hg : greedyOut (sortByAmt (negPart (computeNet L)))
          (sortByAmt (posPart (computeNet L))) = [] := by
        rcases hx : sortByAmt (negPart (computeNet L)) with _ | ⟨d, ds⟩
        · exact absurd hx hD0
        · rw [hC0, greedyOut_nil_right]
      rw [hg, List.length_nil] at hflen
      have hb0 : ((computeNet L).filter (fun ub => eps < ub.2)).length = 0 := by
        rw [← hClen, hC0]
        rfl
      have ha1 : 1 ≤ ((computeNet L).filter (fun ub => ub.2 < -eps)).length := by
        rcases h with h | h
        · exact List.length_pos.mpr h
        · exact absurd (List.length_eq_zero.mp hb0) h
      omega
    · have hb := greedyOut_length_bound _ _ hD0 hC0
      omega

theorem C7_entry_count_bound_witness :
    ((simplifyDebts [(("b", "a"), (30 : ℚ))]).length : ℤ) ≤
      (((computeNet [(("b", "a"), (30 : ℚ))]).filter
        (fun ub => ub.2 < -eps)).length : ℤ) +
      (((computeNet [(("b", "a"), (30 : ℚ))]).filter
        (fun ub => eps < ub.2)).length : ℤ) - 1 := by
  have hba : ¬(("b" : String) = "a") := by decide
  have hnet : computeNet [(("b", "a"), (30 : ℚ))] = [("b", -30), ("a", 30)] := by
    norm_num [computeNet, netStep, dinsert, dget, dgetD, round2_eq, round_eq, hba]
  exact C7_entry_count_bound [(("b", "a"), (30 : ℚ))]
    (Or.inl (by rw [hnet]; norm_num [eps]))

theorem C7_entry_count_counterexample :
    ¬ (((simplifyDebts ([] : Ledger)).length : ℤ) ≤
      (((computeNet ([] : Ledger)).filter (fun ub => ub.2 < -eps)).length : ℤ) +
      (((computeNet ([] : Ledger)).filter (fun ub => eps < ub.2)).length : ℤ) - 1) := by
  rw [simplifyDebts_nil]
  norm_num [computeNet]

/-- C8: when the split configuration is invalid, the validation error is
reported before any debt entry is written, so the debt map after the
failed expense application equals the debt map before it. -/
theorem C8_invalid_split_no_mutation (debts : Ledger) (e : Expense) (m : String)
    (herr : calculateSplits e = Except.error m) :
    updateDebtsRun debts e = (debts, some m) :=
  updateDebtsRun_of_error herr debts

theorem C8_invalid_split_no_mutation_witness :
    updateDebtsRun [(("b", "a"), (5 : ℚ))] expBad =
      ([(("b", "a"), (5 : ℚ))], some "No participants to split among.") :=
  C8_invalid_split_no_mutation [(("b", "a"), (5 : ℚ))] expBad _ calculateSplits_expBad

/-- C9: settling more than the stored directed debt removes the entry and
discards the excess: no reverse entry appears, and the ledger equals the
one obtained by settling exactly the stored amount. -/
theorem C9_overpayment_discarded (debts : Ledger) (payer receiver : User) (a p : ℚ)
    (hwf : (dkeys debts).Nodup) (hne : payer.email ≠ receiver.email)
    (hget : dget debts (payer.email, receiver.email) = some a) (hlt : a < p) :
    settleUpRaw debts payer receiver p = derase debts (payer.email, receiver.email) ∧
    dget (settleUpRaw debts payer receiver p) (payer.email, receiver.email) = none ∧
    dget (settleUpRaw debts payer receiver p) (receiver.email, payer.email) =
      dget debts (receiver.email, payer.email) ∧
    settleUpRaw debts payer receiver p = settleUpRaw debts payer receiver a ∧
    settleUp debts payer receiver p = settleUp debts payer receiver a := by
  have hred : ∀ q, a ≤ q → settleUpRaw debts payer receiver q =
      derase debts (payer.email, receiver.email) := by
    intro q hq
    simp only [settleUpRaw, hget]
    have hD : dgetD (dinsert debts (payer.email, receiver.email) (round2 (a - q)))
        (payer.email, receiver.email) 0 = round2 (a - q) := by
      rw [dgetD, dget_dinsert_self, Option.getD_some]
    have hle : round2 (a - q) ≤ eps := by
      have h0 : round2 (a - q) ≤ round2 0 := round2_mono (by linarith)
      rw [round2_zero] at h0
      have heps : (0 : ℚ) < eps := by norm_num [eps]
      linarith
    rw [hD, if_pos hle, derase_dinsert]
  have h1 := hred p (le_of_lt hlt)
  have h2 := hred a (le_refl a)
  refine ⟨h1, ?_, ?_, ?_, ?_⟩
  · rw [h1]
    exact dget_derase_self hwf _
  · rw [h1]
    exact dget_derase_ne debts (fun he => hne (congrArg Prod.fst he).symm)
  · rw [h1, h2]
  · show simplifyDebts (settleUpRaw debts payer receiver p) =
      simplifyDebts (settleUpRaw debts payer receiver a)
    rw [h1, h2]

theorem C9_overpayment_discarded_witness :
    (settleUpRaw [(("a", "b"), (30 : ℚ))] uA uB 50 =
      derase [(("a", "b"), (30 : ℚ))] (uA.email, uB.email) ∧
    dget (settleUpRaw [(("a", "b"), (30 : ℚ))] uA uB 50) (uA.email, uB.email) = none ∧
    dget (settleUpRaw [(("a", "b"), (30 : ℚ))] uA uB 50) (uB.email, uA.email) =
      dget [(("a", "b"), (30 : ℚ))] (uB.email, uA.email) ∧
    settleUpRaw [(("a", "b"), (30 : ℚ))] uA uB 50 =
      settleUpRaw [(("a", "b"), (30 : ℚ))] uA uB 30 ∧
    settleUp [(("a", "b"), (30 : ℚ))] uA uB 50 =
      settleUp [(("a", "b"), (30 : ℚ))] uA uB 30) :=
  C9_overpayment_discarded [(("a", "b"), (30 : ℚ))] uA uB 30 50
    (by decide) (by decide) (by simp [dget, uA, uB]) (by norm_num)

/-- C10: when an expense passes the membership check but its split
configuration is invalid, `add_expense` has already appended the expense
to the history before the error propagates, while the debt ledger itself
is left unchanged. -/
theorem C10_history_mutated_on_error (g : Group) (e : Expense) (m : String)
    (hmem : ((e.participants ++ [e.payer]).all
      (fun p => p.email ∈ (g.members.map User.email))) = true)
    (herr : calculateSplits e = Except.error m) :
    addExpense g e = ({ g with expenses := g.expenses ++ [e] }, some m) := by
  simp only [addExpense, hmem, eq_self_iff_true, if_true,
    updateDebtsRun_of_error herr]

theorem C10_history_mutated_on_error_witness :
    addExpense grpW expBad =
      ({ grpW with expenses := grpW.expenses ++ [expBad] },
        some "No participants to split among.") :=
  C10_history_mutated_on_error grpW expBad _ (by decide) calculateSplits_expBad

end SplitSmart


